import Mathlib

/-!
Verification of the snippet parser and completion controller of
`lapce-data/src/completion.rs`.

Strings are modelled at the character level (`List Char`); all escape and
delimiter characters handled by the source are ASCII, so on ASCII input
character positions coincide with the source's byte positions and the
char-level model computes the program (`extract_text_go_bytes_ascii`). On
non-ASCII input the source's `extract_text` slices its `&str` at byte
offsets that can fall inside a multi-byte character and panics; that
byte-level behaviour is modelled separately and faithfully by
`extract_text_go_bytes`/`extract_text_bytes`, which return an error where
the program panics (see `parse_panics_on_multibyte`).
-/

namespace Lapce

/-- The character `{` (written via its code so that it never appears bare). -/
def lbrace : Char := Char.ofNat 123

/-- The character `}` (written via its code so that it never appears bare). -/
def rbrace : Char := Char.ofNat 125

/-- Numeric value of a decimal digit string, as produced by
`str::parse::<usize>` on a digit-only match. -/
def digitsVal (ds : List Char) : Nat :=
  ds.foldl (fun a c => a * 10 + (c.toNat - 48)) 0

/-- Decimal digits of a natural number, modelling the `{}` formatting of a
`usize` in `write!` (recursion form used for proofs). -/
def natDigitsW (n : Nat) : List Char :=
  if h : n < 10 then [Char.ofNat (48 + n)]
  else natDigitsW (n / 10) ++ [Char.ofNat (48 + n % 10)]
decreasing_by exact Nat.div_lt_self (by omega) (by omega)

/-- Fuel-driven form of the decimal printer, structurally recursive so that it
evaluates inside the kernel. -/
def natDigitsAux : Nat → Nat → List Char → List Char
  | 0, _, acc => acc
  | fuel + 1, n, acc =>
    if n < 10 then Char.ofNat (48 + n) :: acc
    else natDigitsAux fuel (n / 10) (Char.ofNat (48 + n % 10) :: acc)

/-- Decimal digits of a natural number, modelling the `{}` formatting of a
`usize` in `write!`. -/
def natDigits (n : Nat) : List Char := natDigitsAux (n + 1) n []

/-- `SnippetElement` from the source: literal text, a placeholder with
children, or a bare tabstop. -/
inductive SnippetElement where
  | Text : String → SnippetElement
  | PlaceHolder : Nat → List SnippetElement → SnippetElement
  | Tabstop : Nat → SnippetElement
deriving Repr

mutual

/-- `SnippetElement::len`: the length of the flattened literal text. -/
def SnippetElement.len : SnippetElement → Nat
  | SnippetElement.Text t => t.length
  | SnippetElement.PlaceHolder _ els => lenList els
  | SnippetElement.Tabstop _ => 0

/-- Sum of `len` over a list of elements (the `iter().map(len).sum()` calls). -/
def lenList : List SnippetElement → Nat
  | [] => 0
  | e :: es => SnippetElement.len e + lenList es

end

mutual

/-- `SnippetElement::text`: the flattened literal text. -/
def SnippetElement.text : SnippetElement → List Char
  | SnippetElement.Text t => t.data
  | SnippetElement.PlaceHolder _ els => textList els
  | SnippetElement.Tabstop _ => []

/-- Concatenated `text` over a list of elements. -/
def textList : List SnippetElement → List Char
  | [] => []
  | e :: es => SnippetElement.text e ++ textList es

end

mutual

/-- `impl Display for SnippetElement`: `Text` prints raw, a placeholder prints
as dollar-lbrace n colon children rbrace, a tabstop as dollar n. -/
def SnippetElement.render : SnippetElement → List Char
  | SnippetElement.Text t => t.data
  | SnippetElement.PlaceHolder tab els =>
      '$' :: lbrace :: (natDigits tab ++ ':' :: (renderList els ++ [rbrace]))
  | SnippetElement.Tabstop tab => '$' :: natDigits tab

/-- Concatenated `render` over a list of elements (the `join("")`). -/
def renderList : List SnippetElement → List Char
  | [] => []
  | e :: es => SnippetElement.render e ++ renderList es

end

/-- A parsed snippet: an ordered sequence of top-level elements. -/
structure Snippet where
  elements : List SnippetElement
deriving Repr

/-- `impl Display for SnippetElement` as a `String`. -/
def SnippetElement.to_string (e : SnippetElement) : String := ⟨e.render⟩

/-- `impl Display for Snippet`: concatenation of the elements' displays. -/
def Snippet.to_string (s : Snippet) : String := ⟨renderList s.elements⟩

/-- `Snippet::text` (flattened literal text as a `String`). -/
def Snippet.text (s : Snippet) : String := ⟨textList s.elements⟩

mutual

/-- Tab entries contributed by a single element at flattened position `pos`:
nothing for text, a zero-width span for a tabstop, and for a placeholder its
own span followed by its children's entries (parent first). -/
def SnippetElement.element_tabs : SnippetElement → Nat → List (Nat × Nat × Nat)
  | SnippetElement.Text _, _ => []
  | SnippetElement.PlaceHolder tab els, pos =>
      (tab, pos, pos + lenList els) :: Snippet.elements_tabs els pos
  | SnippetElement.Tabstop tab, pos => [(tab, pos, pos)]

/-- `Snippet::elements_tabs`: walk the elements left to right, accumulating the
flattened position by each element's `len`. -/
def Snippet.elements_tabs : List SnippetElement → Nat → List (Nat × Nat × Nat)
  | [], _ => []
  | e :: rest, pos =>
      SnippetElement.element_tabs e pos ++
        Snippet.elements_tabs rest (pos + SnippetElement.len e)

end

/-- `Snippet::tabs`. -/
def Snippet.tabs (s : Snippet) (pos : Nat) : List (Nat × Nat × Nat) :=
  Snippet.elements_tabs s.elements pos

/-- `Snippet::extract_tabstop`: the regexes `^\$(\d+)` (greedy digits) tried
first, then `^\$\{(\d+)\}`; the returned position is the end of the match. -/
def extract_tabstop (s : List Char) : Option (SnippetElement × List Char) :=
  match s with
  | c :: rest =>
    if c = '$' then
      if rest.takeWhile Char.isDigit = [] then
        match rest with
        | c2 :: r2 =>
          if c2 = lbrace then
            match r2.drop (r2.takeWhile Char.isDigit).length with
            | c3 :: r3 =>
              if c3 = rbrace ∧ r2.takeWhile Char.isDigit ≠ [] then
                some (SnippetElement.Tabstop (digitsVal (r2.takeWhile Char.isDigit)), r3)
              else none
            | [] => none
          else none
        | [] => none
      else
        some (SnippetElement.Tabstop (digitsVal (rest.takeWhile Char.isDigit)),
          rest.drop (rest.takeWhile Char.isDigit).length)
    else none
  | [] => none

/-- Character loop of `Snippet::extract_text`: a two-character escape
(backslash followed by a character of `escs` or `loose_escs`) is replaced by
the escaped character; a bare character of `escs` stops the scan; anything
else is consumed literally. -/
def extract_text_go (escs loose : List Char) : List Char → List Char → List Char × List Char
  | acc, c1 :: c2 :: rest =>
    if c1 = '\\' ∧ (c2 ∈ escs ∨ c2 ∈ loose) then
      extract_text_go escs loose (acc ++ [c2]) rest
    else if c1 ∈ escs then (acc, c1 :: c2 :: rest)
    else extract_text_go escs loose (acc ++ [c1]) (c2 :: rest)
  | acc, [c1] =>
    if c1 ∈ escs then (acc, [c1]) else (acc ++ [c1], [])
  | acc, [] => (acc, [])

/-- `Snippet::extract_text`: `None` when no character was consumed. -/
def extract_text (s : List Char) (escs loose : List Char) :
    Option (SnippetElement × List Char) :=
  match extract_text_go escs loose [] s with
  | (acc, rest) => if acc = [] then none else some (SnippetElement.Text ⟨acc⟩, rest)

/-- A byte value may start a UTF-8 character: continuation bytes are
128..191, and Rust panics when a `&str` slice endpoint lands on one. -/
def isBoundary (b : Nat) : Bool := b < 128 || 192 ≤ b

/-- The position just before this byte list is a character boundary (the
end of the string always is one). -/
def okBoundary : List Nat → Bool
  | [] => true
  | b :: _ => isBoundary b

/-- UTF-8 encoding of one character: the byte representation underlying the
source's `&str`. -/
def utf8Bytes (c : Char) : List Nat :=
  if c.toNat < 128 then [c.toNat]
  else if c.toNat < 2048 then [192 + c.toNat / 64, 128 + c.toNat % 64]
  else if c.toNat < 65536 then
    [224 + c.toNat / 4096, 128 + c.toNat / 64 % 64, 128 + c.toNat % 64]
  else [240 + c.toNat / 262144, 128 + c.toNat / 4096 % 64,
    128 + c.toNat / 64 % 64, 128 + c.toNat % 64]

/-- The UTF-8 bytes of a string, as the source's `&str` holds it. -/
def strBytes (s : String) : List Nat := s.data.flatMap utf8Bytes

/-- Byte-faithful model of the character loop of `Snippet::extract_text`.
The source indexes the `&str` by bytes, so the two-byte escape peek
(`&s[..2]`) and the one-byte read and advance (`&s[0..1]`, `&s[1..]`)
panic — `Except.error` here — whenever offset 2 resp. offset 1 falls
inside a multi-byte character; the checks appear in the source's order.
`escs` and `loose` hold the byte values of the escape characters (all
ASCII in the source). -/
def extract_text_go_bytes (escs loose : List Nat) :
    List Nat → List Nat → Except Unit (List Nat × List Nat)
  | acc, [] => Except.ok (acc, [])
  | acc, [b1] =>
    if b1 ∈ escs then Except.ok (acc, [b1]) else Except.ok (acc ++ [b1], [])
  | acc, b1 :: b2 :: rest =>
    if okBoundary rest = false then Except.error ()
    else if b1 = 92 ∧ (b2 ∈ escs ∨ b2 ∈ loose) then
      extract_text_go_bytes escs loose (acc ++ [b2]) rest
    else if okBoundary (b2 :: rest) = false then Except.error ()
    else if b1 ∈ escs then Except.ok (acc, b1 :: b2 :: rest)
    else extract_text_go_bytes escs loose (acc ++ [b1]) (b2 :: rest)

/-- Byte-faithful `Snippet::extract_text`: propagates the scanner's panic;
otherwise `none` when no byte was consumed. -/
def extract_text_bytes (s : List Nat) (escs loose : List Nat) :
    Except Unit (Option (List Nat × List Nat)) :=
  match extract_text_go_bytes escs loose [] s with
  | Except.error e => Except.error e
  | Except.ok (acc, rest) =>
    Except.ok (if acc = [] then none else some (acc, rest))

/-- Data of a successful match of the placeholder regex
`^\$\{(\d+):(.*?)\}`: the parsed index, the suffix of the input starting at
the content (capture 2), and the content length `k` — the distance to the
first `rbrace`, which the lazy `(.*?)` stops at; the match exists only if
that `rbrace` is reachable without crossing a newline (`.` does not match
newlines). -/
structure PHMatch where
  tab : Nat
  tail : List Char
  k : Nat

/-- The shape test and captures of the placeholder regex. -/
def placeholder_match (s : List Char) : Option PHMatch :=
  match s with
  | c1 :: c2 :: r2 =>
    if c1 = '$' ∧ c2 = lbrace then
      if r2.takeWhile Char.isDigit = [] then none
      else
        match r2.drop (r2.takeWhile Char.isDigit).length with
        | c3 :: tail =>
          if c3 = ':' then
            if tail.findIdx (fun c => c == rbrace) < tail.length ∧
                '\n' ∉ tail.take (tail.findIdx (fun c => c == rbrace)) then
              some ⟨digitsVal (r2.takeWhile Char.isDigit), tail,
                tail.findIdx (fun c => c == rbrace)⟩
            else none
          else none
        | [] => none
    else none
  | _ => none

theorem extract_tabstop_length {s : List Char} {e : SnippetElement} {rest : List Char}
    (h : extract_tabstop s = some (e, rest)) : rest.length < s.length := by
  unfold extract_tabstop at h
  split at h
  · rename_i c r
    split at h
    · split at h
      · -- brace form
        split at h
        · rename_i c2 r2
          split at h
          · split at h
            · rename_i c3 r3 heq
              split at h
              · simp only [Option.some_inj, Prod.mk.injEq] at h
                obtain ⟨-, rfl⟩ := h
                have hlen := congrArg List.length heq
                simp only [List.length_drop, List.length_cons] at hlen ⊢
                omega
              · exact Option.noConfusion h
            · exact Option.noConfusion h
          · exact Option.noConfusion h
        · exact Option.noConfusion h
      · -- plain digits form
        simp only [Option.some_inj, Prod.mk.injEq] at h
        obtain ⟨-, rfl⟩ := h
        simp only [List.length_drop, List.length_cons]
        omega
    · exact Option.noConfusion h
  · exact Option.noConfusion h

theorem extract_text_go_length (escs loose : List Char) :
    ∀ (s acc : List Char),
      acc.length ≤ (extract_text_go escs loose acc s).1.length ∧
      (extract_text_go escs loose acc s).2.length +
        (extract_text_go escs loose acc s).1.length ≤ s.length + acc.length := by
  intro s acc
  induction acc, s using extract_text_go.induct escs loose with
  | case1 acc c1 c2 rest hesc ih =>
    rw [extract_text_go, if_pos hesc]
    simp only [List.length_append, List.length_cons, List.length_nil] at ih ⊢
    omega
  | case2 acc c1 c2 rest hesc hstop =>
    rw [extract_text_go, if_neg hesc, if_pos hstop]
    simp only [List.length_cons]
    omega
  | case3 acc c1 c2 rest hesc hstop ih =>
    rw [extract_text_go, if_neg hesc, if_neg hstop]
    simp only [List.length_append, List.length_cons, List.length_nil] at ih ⊢
    omega
  | case4 acc c1 hstop =>
    rw [extract_text_go, if_pos hstop]
    simp
  | case5 acc c1 hstop =>
    rw [extract_text_go, if_neg hstop]
    simp only [List.length_append, List.length_cons, List.length_nil]
    omega
  | case6 acc =>
    rw [extract_text_go]
    simp

theorem extract_text_length {s escs loose : List Char} {e : SnippetElement}
    {rest : List Char} (h : extract_text s escs loose = some (e, rest)) :
    rest.length < s.length := by
  unfold extract_text at h
  split at h
  rename_i acc rest' heq
  split at h
  · exact Option.noConfusion h
  · rename_i hacc
    simp only [Option.some_inj, Prod.mk.injEq] at h
    obtain ⟨-, rfl⟩ := h
    have := extract_text_go_length escs loose s []
    rw [heq] at this
    simp only [List.length_nil] at this
    have hne : 0 < acc.length := List.length_pos.mpr hacc
    omega

theorem placeholder_match_length {s : List Char} {m : PHMatch}
    (h : placeholder_match s = some m) : m.tail.length + 4 ≤ s.length := by
  unfold placeholder_match at h
  split at h
  · rename_i c1 c2 r2
    split at h
    · split at h
      · exact Option.noConfusion h
      · rename_i hds
        split at h
        · rename_i c3 tail heq
          split at h
          · split at h
            · simp only [Option.some_inj] at h
              subst h
              have hlen := congrArg List.length heq
              have hds' : 0 < (r2.takeWhile Char.isDigit).length :=
                List.length_pos.mpr hds
              have hle : (r2.takeWhile Char.isDigit).length ≤ r2.length :=
                (List.takeWhile_sublist Char.isDigit).length_le
              simp only [List.length_drop, List.length_cons] at hlen ⊢
              omega
            · exact Option.noConfusion h
          · exact Option.noConfusion h
        · exact Option.noConfusion h
    · exact Option.noConfusion h
  · exact Option.noConfusion h

/-- `Snippet::extract_elements`, the main parse loop. At each position it
tries a tabstop, then a placeholder, then text, and stops when nothing
matches (or at end of input). A placeholder with empty regex content becomes
`PlaceHolder tab [Text ""]` with the position moved past the `rbrace`;
otherwise the content is parsed recursively with escape set dollar, rbrace,
backslash, and one character (the closing `rbrace`) is skipped afterwards.
The structural `fuel` argument only bounds the recursion depth: every step
strictly shrinks the remaining input, so any fuel at least the input length
computes the source's (terminating) loop — see
`extract_elements_fuel_congr`. The second component of the result is the
unconsumed remainder of the input (the source's final `pos`, as a suffix). -/
def extract_elements_fuel : Nat → List Char → List Char → List Char →
    List SnippetElement × List Char
  | 0, s, _, _ => ([], s)
  | fuel + 1, s, escs, loose =>
    match extract_tabstop s with
    | some (e, rest) =>
      let res := extract_elements_fuel fuel rest escs loose
      (e :: res.1, res.2)
    | none =>
      match placeholder_match s with
      | some m =>
        if m.k = 0 then
          let res := extract_elements_fuel fuel (m.tail.drop 1) escs loose
          (SnippetElement.PlaceHolder m.tab [SnippetElement.Text ""] :: res.1, res.2)
        else
          let inner := extract_elements_fuel fuel m.tail ['$', rbrace, '\\'] []
          let res := extract_elements_fuel fuel (inner.2.drop 1) escs loose
          (SnippetElement.PlaceHolder m.tab inner.1 :: res.1, res.2)
      | none =>
        match extract_text s escs loose with
        | some (e, rest) =>
          let res := extract_elements_fuel fuel rest escs loose
          (e :: res.1, res.2)
        | none => ([], s)

/-- `Snippet::extract_elements`: elements parsed from `s` plus the unconsumed
suffix of `s`, with fuel equal to the input length (always sufficient). -/
def extract_elements (s : List Char) (escs loose : List Char) :
    List SnippetElement × List Char :=
  extract_elements_fuel s.length s escs loose

/-- `Snippet::from_str` (the `FromStr` impl): top-level escape set dollar and
backslash, loose escape set rbrace; the final position is dropped. -/
def Snippet.from_str (s : String) : Snippet :=
  ⟨(extract_elements s.data ['$', '\\'] [rbrace]).1⟩

theorem extract_elements_fuel_length :
    ∀ (fuel : Nat) (s escs loose : List Char),
      (extract_elements_fuel fuel s escs loose).2.length ≤ s.length := by
  intro fuel
  induction fuel with
  | zero => intro s escs loose; exact Nat.le_refl _
  | succ n ih =>
    intro s escs loose
    rcases h1 : extract_tabstop s with _ | ⟨e, rest⟩
    · rcases h2 : placeholder_match s with _ | m
      · rcases h3 : extract_text s escs loose with _ | ⟨e, rest⟩
        · simp [extract_elements_fuel, h1, h2, h3]
        · have hlt := extract_text_length h3
          have h4 := ih rest escs loose
          simp only [extract_elements_fuel, h1, h2, h3]
          omega
      · by_cases hk : m.k = 0
        · have hlt := placeholder_match_length h2
          have h4 := ih (m.tail.drop 1) escs loose
          simp only [extract_elements_fuel, h1, h2, if_pos hk]
          simp only [List.length_drop] at h4
          omega
        · have hlt := placeholder_match_length h2
          have h4 := ih m.tail ['$', rbrace, '\\'] []
          have h5 := ih
            (((extract_elements_fuel n m.tail ['$', rbrace, '\\'] []).2).drop 1)
            escs loose
          simp only [extract_elements_fuel, h1, h2, if_neg hk]
          simp only [List.length_drop] at h5
          omega
    · have hlt := extract_tabstop_length h1
      have h4 := ih rest escs loose
      simp only [extract_elements_fuel, h1]
      omega

theorem extract_elements_fuel_nil (b : Nat) (escs loose : List Char) :
    extract_elements_fuel b [] escs loose = ([], []) := by
  cases b with
  | zero => rfl
  | succ n => rfl

/-- The fuel argument does not matter once it is at least the input length:
the parse loop always strictly advances, so it is the loop's semantics. -/
theorem extract_elements_fuel_congr :
    ∀ (N : Nat) (s : List Char), s.length ≤ N →
      ∀ (b1 b2 : Nat) (escs loose : List Char), s.length ≤ b1 → s.length ≤ b2 →
        extract_elements_fuel b1 s escs loose = extract_elements_fuel b2 s escs loose := by
  intro N
  induction N with
  | zero =>
    intro s hs b1 b2 escs loose _ _
    have : s = [] := List.length_eq_zero.mp (Nat.le_zero.mp hs)
    subst this
    rw [extract_elements_fuel_nil, extract_elements_fuel_nil]
  | succ N ih =>
    intro s hs b1 b2 escs loose hb1 hb2
    rcases s with _ | ⟨c, cs⟩
    · rw [extract_elements_fuel_nil, extract_elements_fuel_nil]
    · rcases b1 with _ | m1
      · simp at hb1
      rcases b2 with _ | m2
      · simp at hb2
      have hslen : (c :: cs).length = cs.length + 1 := List.length_cons c cs
      rcases h1 : extract_tabstop (c :: cs) with _ | ⟨e, rest⟩
      · rcases h2 : placeholder_match (c :: cs) with _ | m
        · rcases h3 : extract_text (c :: cs) escs loose with _ | ⟨e, rest⟩
          · simp only [extract_elements_fuel, h1, h2, h3]
          · have hlt := extract_text_length h3
            have hrec := ih rest (by omega) m1 m2 escs loose (by omega) (by omega)
            simp only [extract_elements_fuel, h1, h2, h3, hrec]
        · by_cases hk : m.k = 0
          · have hlt := placeholder_match_length h2
            have hrec := ih (m.tail.drop 1)
              (by simp only [List.length_drop]; omega) m1 m2 escs loose
              (by simp only [List.length_drop]; omega)
              (by simp only [List.length_drop]; omega)
            simp only [extract_elements_fuel, h1, h2, if_pos hk, hrec]
          · have hlt := placeholder_match_length h2
            have hinner := ih m.tail (by omega) m1 m2 ['$', rbrace, '\\'] []
              (by omega) (by omega)
            have hrestlen := extract_elements_fuel_length m2 m.tail ['$', rbrace, '\\'] []
            have hrec := ih
              ((extract_elements_fuel m2 m.tail ['$', rbrace, '\\'] []).2.drop 1)
              (by simp only [List.length_drop]; omega) m1 m2 escs loose
              (by simp only [List.length_drop]; omega)
              (by simp only [List.length_drop]; omega)
            simp only [extract_elements_fuel, h1, h2, if_neg hk, hinner, hrec]
      · have hlt := extract_tabstop_length h1
        have hrec := ih rest (by omega) m1 m2 escs loose (by omega) (by omega)
        simp only [extract_elements_fuel, h1, hrec]

theorem extract_elements_nil (escs loose : List Char) :
    extract_elements [] escs loose = ([], []) := rfl

/-- One parse step: a tabstop match prepends its element and continues on
the remainder. -/
theorem extract_elements_tabstop {s rest : List Char} {e : SnippetElement}
    (escs loose : List Char) (h : extract_tabstop s = some (e, rest)) :
    extract_elements s escs loose =
      (e :: (extract_elements rest escs loose).1,
       (extract_elements rest escs loose).2) := by
  have hlt := extract_tabstop_length h
  rcases hlen : s.length with _ | n
  · have : s = [] := List.length_eq_zero.mp hlen
    subst this
    exact absurd h (by simp [extract_tabstop])
  · unfold extract_elements
    rw [hlen]
    have hcong := extract_elements_fuel_congr n rest (by omega) n rest.length
      escs loose (by omega) (Nat.le_refl _)
    simp only [extract_elements_fuel, h, hcong]

/-- One parse step: a placeholder with empty content (`m.k = 0`) yields
`PlaceHolder m.tab [Text ""]` and continues past the closing rbrace. -/
theorem extract_elements_ph_empty {s : List Char} {m : PHMatch}
    (escs loose : List Char) (h1 : extract_tabstop s = none)
    (h2 : placeholder_match s = some m) (hk : m.k = 0) :
    extract_elements s escs loose =
      (SnippetElement.PlaceHolder m.tab [SnippetElement.Text ""] ::
        (extract_elements (m.tail.drop 1) escs loose).1,
       (extract_elements (m.tail.drop 1) escs loose).2) := by
  have hlt := placeholder_match_length h2
  rcases hlen : s.length with _ | n
  · have : s = [] := List.length_eq_zero.mp hlen
    subst this
    exact absurd h2 (by simp [placeholder_match])
  · unfold extract_elements
    rw [hlen]
    have hcong := extract_elements_fuel_congr n (m.tail.drop 1)
      (by simp only [List.length_drop]; omega) n (m.tail.drop 1).length
      escs loose (by simp only [List.length_drop]; omega) (Nat.le_refl _)
    simp only [extract_elements_fuel, h1, h2, if_pos hk, hcong]

/-- One parse step: a placeholder with non-empty content parses the content
recursively under the nested escape set, then skips one character (the
closing rbrace at the recursion's stop position). -/
theorem extract_elements_ph {s : List Char} {m : PHMatch}
    (escs loose : List Char) (h1 : extract_tabstop s = none)
    (h2 : placeholder_match s = some m) (hk : m.k ≠ 0) :
    extract_elements s escs loose =
      (SnippetElement.PlaceHolder m.tab
          (extract_elements m.tail ['$', rbrace, '\\'] []).1 ::
        (extract_elements
          ((extract_elements m.tail ['$', rbrace, '\\'] []).2.drop 1)
          escs loose).1,
       (extract_elements
          ((extract_elements m.tail ['$', rbrace, '\\'] []).2.drop 1)
          escs loose).2) := by
  have hlt := placeholder_match_length h2
  rcases hlen : s.length with _ | n
  · have : s = [] := List.length_eq_zero.mp hlen
    subst this
    exact absurd h2 (by simp [placeholder_match])
  · unfold extract_elements
    rw [hlen]
    have hinner := extract_elements_fuel_congr n m.tail (by omega) n m.tail.length
      ['$', rbrace, '\\'] [] (by omega) (Nat.le_refl _)
    have hrestlen := extract_elements_fuel_length m.tail.length m.tail
      ['$', rbrace, '\\'] []
    have hcong := extract_elements_fuel_congr n
      ((extract_elements_fuel m.tail.length m.tail ['$', rbrace, '\\'] []).2.drop 1)
      (by simp only [List.length_drop]; omega) n
      ((extract_elements_fuel m.tail.length m.tail ['$', rbrace, '\\'] []).2.drop 1).length
      escs loose (by simp only [List.length_drop]; omega) (Nat.le_refl _)
    simp only [extract_elements_fuel, h1, h2, if_neg hk, hinner, hcong]

/-- One parse step: a text match prepends its element and continues. -/
theorem extract_elements_text {s rest : List Char} {e : SnippetElement}
    (escs loose : List Char) (h1 : extract_tabstop s = none)
    (h2 : placeholder_match s = none)
    (h3 : extract_text s escs loose = some (e, rest)) :
    extract_elements s escs loose =
      (e :: (extract_elements rest escs loose).1,
       (extract_elements rest escs loose).2) := by
  have hlt := extract_text_length h3
  rcases hlen : s.length with _ | n
  · have : s = [] := List.length_eq_zero.mp hlen
    subst this
    exact absurd h3 (by simp [extract_text, extract_text_go])
  · unfold extract_elements
    rw [hlen]
    have hcong := extract_elements_fuel_congr n rest (by omega) n rest.length
      escs loose (by omega) (Nat.le_refl _)
    simp only [extract_elements_fuel, h1, h2, h3, hcong]

/-- The loop stops when no element matches. -/
theorem extract_elements_stop {s : List Char} (escs loose : List Char)
    (h1 : extract_tabstop s = none) (h2 : placeholder_match s = none)
    (h3 : extract_text s escs loose = none) :
    extract_elements s escs loose = ([], s) := by
  rcases hlen : s.length with _ | n
  · have : s = [] := List.length_eq_zero.mp hlen
    subst this
    rfl
  · unfold extract_elements
    rw [hlen]
    simp only [extract_elements_fuel, h1, h2, h3]

theorem extract_tabstop_suffix {s : List Char} {e : SnippetElement}
    {rest : List Char} (h : extract_tabstop s = some (e, rest)) :
    rest <:+ s := by
  unfold extract_tabstop at h
  split at h
  · rename_i c r
    split at h
    · rename_i hdollar
      split at h
      · rename_i hds
        split at h
        · rename_i c2 r2
          split at h
          · rename_i hlb
            split at h
            · rename_i c3 r3 heq
              split at h
              · rename_i hcond
                simp only [Option.some_inj, Prod.mk.injEq] at h
                obtain ⟨-, h4⟩ := h
                rw [← h4]
                have h5 : r3 <:+ c3 :: r3 := List.suffix_cons c3 r3
                have h6 : c3 :: r3 <:+ r2 := heq ▸ List.drop_suffix _ r2
                exact (h5.trans h6).trans
                  ((List.suffix_cons c2 r2).trans (List.suffix_cons c (c2 :: r2)))
              · exact Option.noConfusion h
            · exact Option.noConfusion h
          · exact Option.noConfusion h
        · exact Option.noConfusion h
      · simp only [Option.some_inj, Prod.mk.injEq] at h
        obtain ⟨-, h4⟩ := h
        rw [← h4]
        exact (List.drop_suffix _ r).trans (List.suffix_cons c r)
    · exact Option.noConfusion h
  · exact Option.noConfusion h

theorem extract_text_go_suffix (escs loose : List Char) :
    ∀ (s acc : List Char), (extract_text_go escs loose acc s).2 <:+ s := by
  intro s acc
  induction acc, s using extract_text_go.induct escs loose with
  | case1 acc c1 c2 rest hesc ih =>
    rw [extract_text_go, if_pos hesc]
    exact ih.trans ((List.suffix_cons c2 rest).trans (List.suffix_cons c1 (c2 :: rest)))
  | case2 acc c1 c2 rest hesc hstop =>
    rw [extract_text_go, if_neg hesc, if_pos hstop]
  | case3 acc c1 c2 rest hesc hstop ih =>
    rw [extract_text_go, if_neg hesc, if_neg hstop]
    exact ih.trans (List.suffix_cons c1 (c2 :: rest))
  | case4 acc c1 hstop =>
    rw [extract_text_go, if_pos hstop]
  | case5 acc c1 hstop =>
    rw [extract_text_go, if_neg hstop]
    exact List.nil_suffix
  | case6 acc =>
    rw [extract_text_go]

theorem extract_text_suffix {s escs loose : List Char} {e : SnippetElement}
    {rest : List Char} (h : extract_text s escs loose = some (e, rest)) :
    rest <:+ s := by
  unfold extract_text at h
  split at h
  rename_i acc rest' heq
  split at h
  · exact Option.noConfusion h
  · simp only [Option.some_inj, Prod.mk.injEq] at h
    obtain ⟨-, rfl⟩ := h
    have := extract_text_go_suffix escs loose s []
    rw [heq] at this
    exact this

theorem placeholder_match_suffix {s : List Char} {m : PHMatch}
    (h : placeholder_match s = some m) : m.tail <:+ s := by
  unfold placeholder_match at h
  split at h
  · rename_i c1 c2 r2
    split at h
    · split at h
      · exact Option.noConfusion h
      · split at h
        · rename_i c3 tail heq
          split at h
          · split at h
            · simp only [Option.some_inj] at h
              subst h
              have h1 : tail <:+ c3 :: tail := List.suffix_cons c3 tail
              have h2 : c3 :: tail <:+ r2 := heq ▸ List.drop_suffix _ r2
              exact (h1.trans h2).trans
                ((List.suffix_cons c2 r2).trans (List.suffix_cons c1 (c2 :: r2)))
            · exact Option.noConfusion h
          · exact Option.noConfusion h
        · exact Option.noConfusion h
    · exact Option.noConfusion h
  · exact Option.noConfusion h

/-- The remainder returned by the parse loop is a suffix of the input: the
loop consumes a prefix and never runs past the end. -/
theorem extract_elements_suffix :
    ∀ (N : Nat) (s : List Char), s.length ≤ N → ∀ (escs loose : List Char),
      (extract_elements s escs loose).2 <:+ s := by
  intro N
  induction N with
  | zero =>
    intro s hs escs loose
    have : s = [] := List.length_eq_zero.mp (Nat.le_zero.mp hs)
    subst this
    exact List.suffix_refl _
  | succ N ih =>
    intro s hs escs loose
    rcases h1 : extract_tabstop s with _ | ⟨e, rest⟩
    · rcases h2 : placeholder_match s with _ | m
      · rcases h3 : extract_text s escs loose with _ | ⟨e, rest⟩
        · rw [extract_elements_stop escs loose h1 h2 h3]
        · have hlt := extract_text_length h3
          rw [extract_elements_text escs loose h1 h2 h3]
          exact (ih rest (by omega) escs loose).trans (extract_text_suffix h3)
      · have hlt := placeholder_match_length h2
        have htail := placeholder_match_suffix h2
        by_cases hk : m.k = 0
        · rw [extract_elements_ph_empty escs loose h1 h2 hk]
          exact ((ih (m.tail.drop 1)
              (by simp only [List.length_drop]; omega) escs loose).trans
            (List.drop_suffix 1 m.tail)).trans htail
        · rw [extract_elements_ph escs loose h1 h2 hk]
          have hrest1 : (extract_elements m.tail ['$', rbrace, '\\'] []).2 <:+ m.tail :=
            ih m.tail (by omega) ['$', rbrace, '\\'] []
          have hlen1 := extract_elements_fuel_length m.tail.length m.tail
            ['$', rbrace, '\\'] []
          exact (((ih ((extract_elements m.tail ['$', rbrace, '\\'] []).2.drop 1)
              (by
                show ((extract_elements_fuel m.tail.length m.tail
                  ['$', rbrace, '\\'] []).2.drop 1).length ≤ N
                simp only [List.length_drop]
                omega) escs loose).trans
            (List.drop_suffix 1 _)).trans hrest1).trans htail
    · have hlt := extract_tabstop_length h1
      rw [extract_elements_tabstop escs loose h1]
      exact (ih rest (by omega) escs loose).trans (extract_tabstop_suffix h1)

/-! ## Completion controller -/

/-- `CompletionStatus`. -/
inductive CompletionStatus where
  | Inactive
  | Started
deriving DecidableEq

/-- The fields of an LSP `CompletionItem` the controller reads: the display
label and the optional filter text. -/
structure CompletionItem where
  label : String
  filter_text : Option String
deriving DecidableEq

/-- `ScoredCompletionItem`. -/
structure ScoredCompletionItem where
  item : CompletionItem
  score : Int
  label_score : Int
  index : Nat
  indices : List Nat
deriving DecidableEq

/-- The controller state `CompletionData`. The `im::HashMap` cache is a
function from keys to optional values, `insert` overwriting one key and
`clear` dropping all; the `SkimMatcherV2` fuzzy matcher is an opaque field
`matcher` returning `fuzzy_indices`' score and matched indices (§6's
pluggable scorer). Widget ids, sizes and the request machinery carry no
state logic and are omitted. -/
structure CompletionData where
  request_id : Nat
  status : CompletionStatus
  input : String
  index : Nat
  input_items : String → Option (List ScoredCompletionItem)
  filtered_items : List ScoredCompletionItem
  matcher : String → String → Option (Int × List Nat)

/-- `CompletionData::all_items`: the cache at the live input if present,
else the cache at the empty key, else the empty list. -/
def CompletionData.all_items (st : CompletionData) : List ScoredCompletionItem :=
  match st.input_items st.input with
  | some items => items
  | none => (st.input_items "").getD []

/-- `CompletionData::current_items`. -/
def CompletionData.current_items (st : CompletionData) : List ScoredCompletionItem :=
  if st.input = "" then st.all_items else st.filtered_items

/-- `CompletionData::len`. -/
def CompletionData.len (st : CompletionData) : Nat := st.current_items.length

/-- `str::match_indices(pat).next()`: index of the first occurrence of `pat`
as a contiguous sublist (`0` for the empty pattern, `none` when absent). -/
def firstOcc (l pat : List Char) : Option Nat :=
  if pat.isPrefixOf l then some 0
  else
    match l with
    | [] => none
    | _ :: t => (firstOcc t pat).map (fun i => i + 1)

/-- `Ord::cmp` on integers. -/
def intCmp (x y : Int) : Ordering :=
  if x < y then Ordering.lt else if y < x then Ordering.gt else Ordering.eq

/-- `Ord::cmp` on naturals. -/
def natCmp (x y : Nat) : Ordering :=
  if x < y then Ordering.lt else if y < x then Ordering.gt else Ordering.eq

/-- The comparator passed to `sort_by` in `filter_items`: primary score
descending, then `label_score` descending, then label length ascending. -/
def scoreCmp (a b : ScoredCompletionItem) : Ordering :=
  match intCmp b.score a.score with
  | Ordering.lt => Ordering.lt
  | Ordering.gt => Ordering.gt
  | Ordering.eq =>
    match intCmp b.label_score a.label_score with
    | Ordering.lt => Ordering.lt
    | Ordering.gt => Ordering.gt
    | Ordering.eq => natCmp a.item.label.length b.item.label.length

/-- `Vec::sort_by` with comparator `scoreCmp`: a stable sort placing `a`
before `b` whenever `scoreCmp a b` is not `gt`. -/
def sortScored (items : List ScoredCompletionItem) : List ScoredCompletionItem :=
  List.insertionSort (fun a b => scoreCmp a b ≠ Ordering.gt) items

/-- The body of the `filter_map` in `CompletionData::filter_items` for one
candidate: resolve the filter text, require it to occur in the label
(`shift`), fuzzy-match the input against it, shift the returned indices,
and score the full label independently for the tie-break. -/
def filterCandidate (matcher : String → String → Option (Int × List Nat))
    (input : String) (i : ScoredCompletionItem) : Option ScoredCompletionItem :=
  match firstOcc i.item.label.data (i.item.filter_text.getD i.item.label).data with
  | none => none
  | some shift =>
    match matcher (i.item.filter_text.getD i.item.label) input with
    | none => none
    | some (score, indices) =>
      some { i with
        score := score
        label_score :=
          match matcher i.item.label input with
          | some (ls, _) => ls
          | none => score
        indices := if 0 < shift then indices.map (fun j => j + shift) else indices }

/-- `CompletionData::filter_items`: returns immediately on empty input, else
recomputes `filtered_items` from `all_items`. -/
def CompletionData.filter_items (st : CompletionData) : CompletionData :=
  if st.input = "" then st
  else
    { st with
      filtered_items := sortScored (st.all_items.filterMap
        (filterCandidate st.matcher st.input)) }

/-- Modelled from the spec: `Movement::Down.update_index(index, len, 1, true)`
lives in the `movement` module, which is not part of the excerpt. Per §4.2,
`next` moves `index` by plus 1 with wraparound over the current displayed
list length, and a list of length 0 leaves `index` unchanged (guarding the
modulo by zero). -/
def update_index_down (index len : Nat) : Nat :=
  if len = 0 then index else (index + 1) % len

/-- Modelled from the spec: `Movement::Up.update_index(index, len, 1, true)`,
the wrapping decrement; see `update_index_down`. -/
def update_index_up (index len : Nat) : Nat :=
  if len = 0 then index else (index + len - 1) % len

/-- `CompletionData::next`. -/
def CompletionData.next (st : CompletionData) : CompletionData :=
  { st with index := update_index_down st.index st.len }

/-- `CompletionData::previous`. -/
def CompletionData.previous (st : CompletionData) : CompletionData :=
  { st with index := update_index_up st.index st.len }

/-- The `ScoredCompletionItem` built by `receive` for each response item:
zero scores, empty indices. -/
def scored0 (i : CompletionItem) : ScoredCompletionItem :=
  ⟨i, 0, 0, 0, []⟩

/-- `CompletionData::receive`: drop the response unless the controller is
active and the ids match; otherwise cache the raw items under the response's
input key and re-run the filter. (`CompletionResponse::Array` and `::List`
both reduce to their item list.) -/
def CompletionData.receive (st : CompletionData) (request_id : Nat)
    (input : String) (resp : List CompletionItem) : CompletionData :=
  if st.status = CompletionStatus.Inactive ∨ st.request_id ≠ request_id then st
  else
    ({ st with
        input_items := fun k =>
          if k = input then some (resp.map scored0) else st.input_items k }).filter_items

/-- `CompletionData::update_input`. -/
def CompletionData.update_input (st : CompletionData) (input : String) :
    CompletionData :=
  if st.status = CompletionStatus.Inactive then
    { st with input := input, index := 0 }
  else
    ({ st with input := input, index := 0 }).filter_items

/-- `CompletionData::cancel`. -/
def CompletionData.cancel (st : CompletionData) : CompletionData :=
  if st.status = CompletionStatus.Inactive then st
  else
    { st with
      status := CompletionStatus.Inactive
      input := ""
      input_items := fun _ => none
      index := 0 }

/-- The selection invariant of §3: `index` lies in `[0, len)` of the
currently displayed list, where an empty displayed list has `index = 0`. -/
def IndexInv (st : CompletionData) : Prop :=
  st.index < st.len ∨ (st.len = 0 ∧ st.index = 0)

instance (st : CompletionData) : Decidable (IndexInv st) := by
  unfold IndexInv; infer_instance

/-! ## Canonical snippet values (for the round-trip law) -/

/-- Escape set used by `extract_elements` at the two nesting levels: inside
a placeholder dollar, rbrace and backslash; at the top level dollar and
backslash. -/
def escsOf (nested : Bool) : List Char :=
  if nested then ['$', rbrace, '\\'] else ['$', '\\']

/-- Loose escape set: empty inside a placeholder, rbrace at the top level. -/
def looseOf (nested : Bool) : List Char :=
  if nested then [] else [rbrace]

/-- Does the list start with a non-digit (or end)? Guards the greedy digit
regexes from absorbing following characters. -/
def noDigitHead : List Char → Bool
  | [] => true
  | c :: _ => !c.isDigit

/-- A list on which `extract_text` stops immediately: empty, or starting
with a stop character other than backslash. -/
def stopsText (escs : List Char) (l : List Char) : Prop :=
  l = [] ∨ ∃ c cs, l = c :: cs ∧ c ∈ escs ∧ c ≠ '\\'

/-- Is this list exactly a single empty text element (the parse of an empty
placeholder content)? -/
def isEmptyText : List SnippetElement → Bool
  | [SnippetElement.Text t] => t.data.isEmpty
  | _ => false

/-- Is this element a `Text`? -/
def isTextEl : SnippetElement → Bool
  | SnippetElement.Text _ => true
  | _ => false

/-- Does this element's rendering start with a decimal digit? (Only a text
element can.) -/
def startsWithDigit : SnippetElement → Bool
  | SnippetElement.Text t =>
    match t.data with
    | c :: _ => c.isDigit
    | [] => false
  | _ => false

/-- Constraint between an element and its successors in a canonical
sequence: a text element may not be followed by another text element (they
would merge when reparsed), and a tabstop may not be followed by an element
whose rendering starts with a digit (the digit would be absorbed into the
tabstop's index). -/
def pairOk : SnippetElement → List SnippetElement → Bool
  | SnippetElement.Text _, f :: _ => !isTextEl f
  | SnippetElement.Tabstop _, f :: _ => !startsWithDigit f
  | _, _ => true

mutual

/-- Canonical form of one element. `nested` is true inside a placeholder.
Text must be nonempty, ASCII-only (the source's byte-sliced text scanner
panics on any multi-byte character, see `extract_text_bytes`), and free of
dollar and backslash; inside a placeholder it must also be free of rbrace
and newline. A placeholder holds either exactly one empty text element or
a nonempty canonical sequence. -/
def canonEl : Bool → SnippetElement → Bool
  | nested, SnippetElement.Text t =>
    decide (t.data ≠ [] ∧ '$' ∉ t.data ∧ '\\' ∉ t.data ∧
      (nested = true → rbrace ∉ t.data ∧ '\n' ∉ t.data) ∧
      ∀ c ∈ t.data, c.toNat < 128)
  | _, SnippetElement.Tabstop _ => true
  | _, SnippetElement.PlaceHolder _ els =>
    isEmptyText els || (!els.isEmpty && canonList true els)

/-- Canonical form of a sequence of elements. -/
def canonList : Bool → List SnippetElement → Bool
  | _, [] => true
  | nested, e :: es => canonEl nested e && canonList nested es && pairOk e es

end

/-! ## Concrete states for witnesses and counterexamples -/

/-- A started controller with request id 5 and one displayed item. -/
def stStale : CompletionData :=
  { request_id := 5
    status := CompletionStatus.Started
    input := "ab"
    index := 0
    input_items := fun _ => none
    filtered_items := [scored0 ⟨"alpha", none⟩]
    matcher := fun _ _ => none }

/-- A started controller whose empty-input cache holds three items in server
order. -/
def stPool : CompletionData :=
  { request_id := 1
    status := CompletionStatus.Started
    input := ""
    index := 0
    input_items := fun k =>
      if k = "" then some [scored0 ⟨"bb", none⟩, scored0 ⟨"aa", none⟩, scored0 ⟨"cc", none⟩]
      else none
    filtered_items := []
    matcher := fun t _ => if t = "aa" then some (3, [0]) else some (1, [0]) }

/-- A started controller displaying three items with the last one selected;
its matcher rejects everything, so an accepted `receive` empties the
displayed list. -/
def stShrink : CompletionData :=
  { request_id := 1
    status := CompletionStatus.Started
    input := "x"
    index := 2
    input_items := fun _ => none
    filtered_items := [scored0 ⟨"a", none⟩, scored0 ⟨"b", none⟩, scored0 ⟨"c", none⟩]
    matcher := fun _ _ => none }

/-- A started controller with empty live input and an empty cache. -/
def stEmptyInput : CompletionData :=
  { request_id := 1
    status := CompletionStatus.Started
    input := ""
    index := 0
    input_items := fun _ => none
    filtered_items := []
    matcher := fun _ _ => none }

/-- A started controller with non-empty input whose matcher ranks label
`"aa"` above everything else. -/
def stRank : CompletionData :=
  { request_id := 1
    status := CompletionStatus.Started
    input := "x"
    index := 0
    input_items := fun k =>
      if k = "" then some [scored0 ⟨"bb", none⟩, scored0 ⟨"aa", none⟩] else none
    filtered_items := []
    matcher := fun t _ => if t = "aa" then some (3, [0]) else some (1, [0]) }

/-- The snippet of the round-trip counterexample: a tabstop followed by text
beginning with a digit, both in canonical printed form. -/
def snipCounter : Snippet := ⟨[SnippetElement.Tabstop 1, SnippetElement.Text "2a"]⟩

/-- A canonical snippet exercising every constructor (the shape of the
source's own unit test). -/
def snipCanon : Snippet :=
  ⟨[SnippetElement.Text "start ", SnippetElement.Tabstop 1,
    SnippetElement.PlaceHolder 2 [SnippetElement.Text "second ",
      SnippetElement.PlaceHolder 3 [SnippetElement.Text "third"]],
    SnippetElement.Text " ", SnippetElement.Tabstop 0]⟩

/-! ## Basic controller lemmas -/

theorem filter_items_input (st : CompletionData) :
    st.filter_items.input = st.input := by
  unfold CompletionData.filter_items; split <;> rfl

theorem filter_items_index (st : CompletionData) :
    st.filter_items.index = st.index := by
  unfold CompletionData.filter_items; split <;> rfl

theorem filter_items_status (st : CompletionData) :
    st.filter_items.status = st.status := by
  unfold CompletionData.filter_items; split <;> rfl

theorem filter_items_input_items (st : CompletionData) :
    st.filter_items.input_items = st.input_items := by
  unfold CompletionData.filter_items; split <;> rfl

theorem filter_items_filtered (st : CompletionData) (h : st.input ≠ "") :
    st.filter_items.filtered_items =
      sortScored (st.all_items.filterMap (filterCandidate st.matcher st.input)) := by
  unfold CompletionData.filter_items
  rw [if_neg h]

theorem update_input_input (st : CompletionData) (s : String) :
    (st.update_input s).input = s := by
  unfold CompletionData.update_input; split
  · rfl
  · rw [filter_items_input]

theorem update_input_index (st : CompletionData) (s : String) :
    (st.update_input s).index = 0 := by
  unfold CompletionData.update_input; split
  · rfl
  · rw [filter_items_index]

theorem update_input_input_items (st : CompletionData) (s : String) :
    (st.update_input s).input_items = st.input_items := by
  unfold CompletionData.update_input; split
  · rfl
  · rw [filter_items_input_items]

/-! ## C1: stale-response rejection -/

/-- C1: a `receive` whose controller is inactive or whose request id differs
from the current one leaves the state unchanged — `filtered_items` is
exactly what it was and no entry is added to the `input_items` cache. -/
theorem receive_stale_noop (st : CompletionData) (rid : Nat) (inp : String)
    (resp : List CompletionItem)
    (h : st.status = CompletionStatus.Inactive ∨ st.request_id ≠ rid) :
    st.receive rid inp resp = st ∧
    (st.receive rid inp resp).filtered_items = st.filtered_items ∧
    (st.receive rid inp resp).input_items = st.input_items := by
  have heq : st.receive rid inp resp = st := by
    unfold CompletionData.receive
    rw [if_pos h]
  exact ⟨heq, by rw [heq], by rw [heq]⟩

/-- Witness for C1, the spec's own instance: `request_id = 5`,
`receive(4, "", items)` is a no-op. -/
theorem receive_stale_noop_witness :
    CompletionData.receive stStale 4 "" [⟨"beta", none⟩] = stStale :=
  (receive_stale_noop stStale 4 "" [⟨"beta", none⟩] (Or.inr (by decide))).1

/-! ## C5: wraparound navigation -/

/-- C5: with `n` displayed items, `next` maps index `n-1` to `0` and
otherwise adds one, `previous` maps `0` to `n-1` and otherwise subtracts
one; with no displayed items both leave the index unchanged (no division by
zero — the zero-length case is guarded). -/
theorem next_previous_wraparound (st : CompletionData) :
    (0 < st.len →
      (st.index = st.len - 1 → st.next.index = 0) ∧
      (st.index < st.len - 1 → st.next.index = st.index + 1) ∧
      (st.index = 0 → st.previous.index = st.len - 1) ∧
      (0 < st.index → st.index < st.len → st.previous.index = st.index - 1)) ∧
    (st.len = 0 → st.next.index = st.index ∧ st.previous.index = st.index) := by
  have hnext : st.next.index = update_index_down st.index st.len := rfl
  have hprev : st.previous.index = update_index_up st.index st.len := rfl
  constructor
  · intro hlen
    refine ⟨fun hi => ?_, fun hi => ?_, fun hi => ?_, fun hi hi2 => ?_⟩
    · rw [hnext]; unfold update_index_down
      rw [if_neg (show ¬ st.len = 0 by omega), hi]
      have : st.len - 1 + 1 = st.len := by omega
      rw [this, Nat.mod_self]
    · rw [hnext]; unfold update_index_down
      rw [if_neg (show ¬ st.len = 0 by omega)]
      exact Nat.mod_eq_of_lt (by omega)
    · rw [hprev]; unfold update_index_up
      rw [if_neg (show ¬ st.len = 0 by omega), hi]
      have h0 : 0 + st.len - 1 = st.len - 1 := by omega
      rw [h0]
      exact Nat.mod_eq_of_lt (by omega)
    · rw [hprev]; unfold update_index_up
      rw [if_neg (show ¬ st.len = 0 by omega)]
      have : st.index + st.len - 1 = (st.index - 1) + st.len := by omega
      rw [this, Nat.add_mod_right]
      exact Nat.mod_eq_of_lt (by omega)
  · intro hlen
    rw [hnext, hprev]; unfold update_index_down update_index_up
    rw [if_pos hlen, if_pos hlen]
    exact ⟨rfl, rfl⟩

/-- Witness for C5 at a 3-item list: from index 2, `next` wraps to 0, and
from index 0, `previous` wraps to 2. -/
theorem next_previous_wraparound_witness :
    ({ stPool with index := 2 } : CompletionData).next.index = 0 ∧
    stPool.previous.index = 2 := by
  constructor
  · exact ((next_previous_wraparound { stPool with index := 2 }).1 (by decide)).1
      (by decide)
  · exact ((next_previous_wraparound stPool).1 (by decide)).2.2.1 (by decide)

/-! ## C7: the index invariant -/

/-- C7 (amended): `update_input`, `cancel`, `next` and `previous` preserve
the index invariant (`index` within the displayed list, `0` when it is
empty). `receive` is excluded: it never resets `index`, so an accepted
response that shrinks the displayed list can leave `index` at or past the
new length — see the counterexample. -/
theorem index_invariant_preserved (st : CompletionData) (h : IndexInv st) :
    (∀ s, IndexInv (st.update_input s)) ∧ IndexInv st.cancel ∧
    IndexInv st.next ∧ IndexInv st.previous := by
  refine ⟨fun s => ?_, ?_, ?_, ?_⟩
  · rcases Nat.eq_zero_or_pos (st.update_input s).len with h0 | h0
    · exact Or.inr ⟨h0, update_input_index st s⟩
    · exact Or.inl (by rw [update_input_index]; exact h0)
  · unfold CompletionData.cancel
    split
    · exact h
    · exact Or.inr ⟨rfl, rfl⟩
  · have hlen : st.next.len = st.len := rfl
    have hidx : st.next.index = update_index_down st.index st.len := rfl
    unfold update_index_down at hidx
    rcases Nat.eq_zero_or_pos st.len with h0 | h0
    · rw [if_pos h0] at hidx
      refine Or.inr ⟨by rw [hlen]; exact h0, ?_⟩
      rw [hidx]
      rcases h with h | ⟨-, h⟩
      · omega
      · exact h
    · rw [if_neg (show ¬ st.len = 0 by omega)] at hidx
      exact Or.inl (by rw [hlen, hidx]; exact Nat.mod_lt _ h0)
  · have hlen : st.previous.len = st.len := rfl
    have hidx : st.previous.index = update_index_up st.index st.len := rfl
    unfold update_index_up at hidx
    rcases Nat.eq_zero_or_pos st.len with h0 | h0
    · rw [if_pos h0] at hidx
      refine Or.inr ⟨by rw [hlen]; exact h0, ?_⟩
      rw [hidx]
      rcases h with h | ⟨-, h⟩
      · omega
      · exact h
    · rw [if_neg (show ¬ st.len = 0 by omega)] at hidx
      exact Or.inl (by rw [hlen, hidx]; exact Nat.mod_lt _ h0)

/-- Witness for C7 (amended) at a concrete started state. -/
theorem index_invariant_preserved_witness :
    IndexInv (stShrink.update_input "y") ∧ IndexInv stShrink.cancel := by
  have h := index_invariant_preserved stShrink (by decide)
  exact ⟨h.1 "y", h.2.1⟩

/-- Counterexample to C7 as stated: `stShrink` satisfies the invariant
(index 2 of 3 items), but the accepted `receive` empties the displayed list
while leaving `index = 2`. -/
theorem index_invariant_receive_counterexample :
    IndexInv stShrink ∧
    ¬ IndexInv (stShrink.receive 1 "x" [⟨"a", none⟩]) := by decide

/-! ## C10: receive during empty input -/

/-- C10 (amended): while the live input is empty, an accepted `receive`
stores the items in the cache and leaves `filtered_items` unchanged (the
filter recomputation returns immediately); the new items are observable
through `current_items` when the response's cache key is the empty string
(`current_items` then reads the cache directly instead of
`filtered_items`). For a non-empty response key they are cached but not
displayed — see the counterexample. -/
theorem receive_empty_input (st : CompletionData) (rid : Nat) (inp : String)
    (resp : List CompletionItem) (hst : st.status = CompletionStatus.Started)
    (hrid : st.request_id = rid) (hinp : st.input = "") :
    (st.receive rid inp resp).filtered_items = st.filtered_items ∧
    (st.receive rid inp resp).input_items inp = some (resp.map scored0) ∧
    (inp = "" → (st.receive rid inp resp).current_items = resp.map scored0) := by
  have hguard : ¬ (st.status = CompletionStatus.Inactive ∨ st.request_id ≠ rid) := by
    rintro (hbad | hbad)
    · rw [hst] at hbad; exact CompletionStatus.noConfusion hbad
    · exact hbad hrid
  have hrec : st.receive rid inp resp =
      { st with input_items := fun k =>
          if k = inp then some (resp.map scored0) else st.input_items k } := by
    unfold CompletionData.receive
    rw [if_neg hguard]
    unfold CompletionData.filter_items
    split
    · rfl
    · rename_i hbad
      exact absurd hinp hbad
  refine ⟨by rw [hrec], by rw [hrec]; simp, ?_⟩
  intro hkey
  subst hkey
  rw [hrec]
  unfold CompletionData.current_items CompletionData.all_items
  simp [hinp]

/-- Witness for C10 (amended): receiving under the empty key while the input
is empty makes the items current without touching `filtered_items`. -/
theorem receive_empty_input_witness :
    (stEmptyInput.receive 1 "" [⟨"beta", none⟩]).filtered_items =
        stEmptyInput.filtered_items ∧
    (stEmptyInput.receive 1 "" [⟨"beta", none⟩]).current_items =
        [scored0 ⟨"beta", none⟩] := by
  have h := receive_empty_input stEmptyInput 1 "" [⟨"beta", none⟩]
    (by decide) (by decide) (by decide)
  exact ⟨h.1, h.2.2 rfl⟩

/-- Counterexample to C10 as stated: an accepted `receive` with empty live
input whose response key is `"a"` caches the items, yet `current_items`
(reading the empty key) does not contain them. -/
theorem receive_empty_input_counterexample :
    (stEmptyInput.receive 1 "a" [⟨"beta", none⟩]).current_items = [] ∧
    ([] : List ScoredCompletionItem) ≠ [scored0 ⟨"beta", none⟩] := by decide

/-! ## C3: filtering re-derives from the cached pool -/

theorem filterCandidate_item {m : String → String → Option (Int × List Nat)}
    {inp : String} {i x : ScoredCompletionItem}
    (h : filterCandidate m inp i = some x) : x.item = i.item := by
  unfold filterCandidate at h
  split at h
  · exact Option.noConfusion h
  · split at h
    · exact Option.noConfusion h
    · simp only [Option.some_inj] at h
      subst h
      rfl

/-- C3: (a) with the unfiltered response cached under the empty key, a
non-empty `update_input` followed by `update_input ""` yields exactly that
cached sequence, in its original order, from `current_items`; (b) a
recomputation of `filtered_items` is a function of the cache, the live input
and the matcher only — never of the previous `filtered_items`; (c) every
recomputed item is drawn from the cached candidate pool `all_items`. -/
theorem filter_from_full_pool :
    (∀ (st : CompletionData) (s : String) (A : List ScoredCompletionItem),
      s ≠ "" → st.input_items "" = some A →
      ((st.update_input s).update_input "").current_items = A) ∧
    (∀ st1 st2 : CompletionData, st1.input = st2.input → st1.input ≠ "" →
      st1.input_items = st2.input_items → st1.matcher = st2.matcher →
      st1.filter_items.filtered_items = st2.filter_items.filtered_items) ∧
    (∀ st : CompletionData, st.input ≠ "" →
      ∀ x ∈ st.filter_items.filtered_items, ∃ y ∈ st.all_items, x.item = y.item) := by
  refine ⟨fun st s A hs hA => ?_, fun st1 st2 hin hne hitems hm => ?_,
    fun st hne x hx => ?_⟩
  · have h2 : ((st.update_input s).update_input "").input = "" :=
      update_input_input _ _
    have h3 : ((st.update_input s).update_input "").input_items = st.input_items := by
      rw [update_input_input_items, update_input_input_items]
    unfold CompletionData.current_items
    rw [if_pos h2]
    unfold CompletionData.all_items
    rw [h3, h2, hA]
  · have hall : st1.all_items = st2.all_items := by
      unfold CompletionData.all_items
      rw [hitems, hin]
    rw [filter_items_filtered st1 hne, filter_items_filtered st2 (hin ▸ hne),
      hall, hm, hin]
  · rw [filter_items_filtered st hne] at hx
    have hperm := List.perm_insertionSort
      (fun a b => scoreCmp a b ≠ Ordering.gt)
      (st.all_items.filterMap (filterCandidate st.matcher st.input))
    have hx' : x ∈ st.all_items.filterMap (filterCandidate st.matcher st.input) :=
      hperm.mem_iff.mp hx
    obtain ⟨y, hy, hfy⟩ := List.mem_filterMap.mp hx'
    exact ⟨y, hy, filterCandidate_item hfy⟩

/-- Witness for C3: on `stPool`, filtering with `"x"` and then clearing the
input restores the three cached items in server order. -/
theorem filter_from_full_pool_witness :
    ((stPool.update_input "x").update_input "").current_items =
      [scored0 ⟨"bb", none⟩, scored0 ⟨"aa", none⟩, scored0 ⟨"cc", none⟩] :=
  filter_from_full_pool.1 stPool "x" _ (by decide) (by decide)

/-! ## C6: sort order of the filtered list -/

theorem scoreCmp_ne_gt_iff (a b : ScoredCompletionItem) :
    scoreCmp a b ≠ Ordering.gt ↔
      (b.score < a.score ∨ (b.score = a.score ∧
        (b.label_score < a.label_score ∨ (b.label_score = a.label_score ∧
          a.item.label.length ≤ b.item.label.length)))) := by
  unfold scoreCmp intCmp natCmp
  split_ifs <;> simp_all <;> omega

instance : IsTotal ScoredCompletionItem (fun a b => scoreCmp a b ≠ Ordering.gt) := by
  constructor
  intro a b
  rw [scoreCmp_ne_gt_iff, scoreCmp_ne_gt_iff]
  omega

instance : IsTrans ScoredCompletionItem (fun a b => scoreCmp a b ≠ Ordering.gt) := by
  constructor
  intro a b c hab hbc
  rw [scoreCmp_ne_gt_iff] at hab hbc ⊢
  omega

/-- C6: in the recomputed `filtered_items`, for any two positions `i < j`,
the item at `i` has primary score at least that at `j`; with equal primary
scores the higher `label_score` comes first; with both equal the shorter
label comes first. -/
theorem fuzzy_sort_order (st : CompletionData) (h : st.input ≠ "") (i j : Nat)
    (hij : i < j) (hj : j < st.filter_items.filtered_items.length) :
    ((st.filter_items.filtered_items.get ⟨j, hj⟩).score ≤
      (st.filter_items.filtered_items.get ⟨i, Nat.lt_trans hij hj⟩).score) ∧
    ((st.filter_items.filtered_items.get ⟨j, hj⟩).score =
        (st.filter_items.filtered_items.get ⟨i, Nat.lt_trans hij hj⟩).score →
      (st.filter_items.filtered_items.get ⟨j, hj⟩).label_score ≤
        (st.filter_items.filtered_items.get ⟨i, Nat.lt_trans hij hj⟩).label_score) ∧
    ((st.filter_items.filtered_items.get ⟨j, hj⟩).score =
        (st.filter_items.filtered_items.get ⟨i, Nat.lt_trans hij hj⟩).score →
      (st.filter_items.filtered_items.get ⟨j, hj⟩).label_score =
        (st.filter_items.filtered_items.get ⟨i, Nat.lt_trans hij hj⟩).label_score →
      (st.filter_items.filtered_items.get ⟨i, Nat.lt_trans hij hj⟩).item.label.length ≤
        (st.filter_items.filtered_items.get ⟨j, hj⟩).item.label.length) := by
  have hs : List.Sorted (fun a b => scoreCmp a b ≠ Ordering.gt)
      st.filter_items.filtered_items := by
    rw [filter_items_filtered st h]
    exact List.sorted_insertionSort _ _
  have hrel := @List.Sorted.rel_get_of_lt _ _ _ hs
    ⟨i, Nat.lt_trans hij hj⟩ ⟨j, hj⟩ hij
  rw [scoreCmp_ne_gt_iff] at hrel
  refine ⟨by omega, fun h1 => by omega, fun h1 h2 => by omega⟩

/-- Witness for C6 on `stRank`: the higher-scored item sorts first. -/
theorem fuzzy_sort_order_witness :
    (stRank.filter_items.filtered_items.get ⟨1, by decide⟩).score ≤
      (stRank.filter_items.filtered_items.get ⟨0, by decide⟩).score :=
  (fuzzy_sort_order stRank (by decide) 0 1 (by decide) (by decide)).1

/-! ## C4: tab enumeration -/

/-- C4: on the template of the source's unit test, `tabs 0` yields exactly
the four spans of the spec and `text` the flattened literal text; in
general, a tabstop contributes a zero-length span at the current flattened
position, a placeholder's span covers the flattened length of its children
with the placeholder's own entry before its children's entries
(parent-first), and text only advances the position. -/
theorem tabs_enumeration :
    (Snippet.from_str "start $1$\x7b2:second $\x7b3:third\x7d\x7d $0").tabs 0 =
      [(1, 6, 6), (2, 6, 18), (3, 13, 18), (0, 19, 19)] ∧
    (Snippet.from_str "start $1$\x7b2:second $\x7b3:third\x7d\x7d $0").text =
      "start second third " ∧
    (∀ (n : Nat) (rest : List SnippetElement) (pos : Nat),
      Snippet.elements_tabs (SnippetElement.Tabstop n :: rest) pos =
        (n, pos, pos) :: Snippet.elements_tabs rest pos) ∧
    (∀ (n : Nat) (els rest : List SnippetElement) (pos : Nat),
      Snippet.elements_tabs (SnippetElement.PlaceHolder n els :: rest) pos =
        (n, pos, pos + lenList els) ::
          (Snippet.elements_tabs els pos ++
            Snippet.elements_tabs rest (pos + lenList els))) ∧
    (∀ (t : String) (rest : List SnippetElement) (pos : Nat),
      Snippet.elements_tabs (SnippetElement.Text t :: rest) pos =
        Snippet.elements_tabs rest (pos + t.length)) := by
  refine ⟨by decide, by decide, fun n rest pos => ?_, fun n els rest pos => ?_,
    fun t rest pos => ?_⟩
  · simp [Snippet.elements_tabs, SnippetElement.element_tabs, SnippetElement.len]
  · simp [Snippet.elements_tabs, SnippetElement.element_tabs, SnippetElement.len]
  · simp [Snippet.elements_tabs, SnippetElement.element_tabs, SnippetElement.len]

/-! ## C8: empty placeholder -/

/-- C8: the template dollar lbrace 1 colon rbrace parses to a single
placeholder with index 1 holding exactly one empty text element, whose
`len` is 0. -/
theorem empty_placeholder_preserved :
    (Snippet.from_str "$\x7b1:\x7d").elements =
      [SnippetElement.PlaceHolder 1 [SnippetElement.Text ""]] ∧
    SnippetElement.len (SnippetElement.PlaceHolder 1 [SnippetElement.Text ""]) = 0 :=
  ⟨rfl, rfl⟩

/-! ## The byte-level scanner agrees with the char-level model on ASCII -/

theorem char_toNat_inj {a b : Char} (h : a.toNat = b.toNat) : a = b :=
  Char.ext (UInt32.ext h)

theorem mem_map_toNat_iff {c : Char} {l : List Char} :
    Char.toNat c ∈ l.map Char.toNat ↔ c ∈ l := by
  constructor
  · intro h
    obtain ⟨d, hd, hdc⟩ := List.mem_map.mp h
    exact (char_toNat_inj hdc) ▸ hd
  · intro h
    exact List.mem_map.mpr ⟨c, h, rfl⟩

theorem okBoundary_ascii {l : List Char} (h : ∀ c ∈ l, Char.toNat c < 128) :
    okBoundary (l.map Char.toNat) = true := by
  cases l with
  | nil => rfl
  | cons c cs =>
    have hc := h c (List.mem_cons_self c cs)
    simp only [List.map_cons, okBoundary, isBoundary, Bool.or_eq_true,
      decide_eq_true_eq]
    exact Or.inl hc

/-- ASCII characters encode as their single code-point byte. -/
theorem flatMap_utf8_ascii : ∀ {l : List Char},
    (∀ c ∈ l, Char.toNat c < 128) →
    l.flatMap utf8Bytes = l.map Char.toNat := by
  intro l
  induction l with
  | nil => intro h; rfl
  | cons c cs ih =>
    intro h
    have hc := h c (List.mem_cons_self c cs)
    simp only [List.flatMap_cons, List.map_cons, utf8Bytes, if_pos hc,
      ih (fun x hx => h x (List.mem_cons_of_mem c hx)), List.singleton_append]

/-- On ASCII input the byte-faithful scanner never panics and computes
exactly the char-level scanner: the char-level model is the program's
behaviour on ASCII strings. -/
theorem extract_text_go_bytes_ascii (escs loose : List Char) :
    ∀ (n : Nat) (s acc : List Char), s.length ≤ n →
      (∀ c ∈ s, Char.toNat c < 128) →
      extract_text_go_bytes (escs.map Char.toNat) (loose.map Char.toNat)
        (acc.map Char.toNat) (s.map Char.toNat) =
      Except.ok ((extract_text_go escs loose acc s).1.map Char.toNat,
        (extract_text_go escs loose acc s).2.map Char.toNat) := by
  intro n
  induction n with
  | zero =>
    intro s acc hlen _
    have hs : s = [] := List.eq_nil_of_length_eq_zero (Nat.le_zero.mp hlen)
    subst hs
    rfl
  | succ n ih =>
    intro s acc hlen hascii
    cases s with
    | nil => rfl
    | cons c1 tl =>
      cases tl with
      | nil =>
        by_cases h : c1 ∈ escs
        · have hgo : extract_text_go escs loose acc [c1] = (acc, [c1]) := by
            rw [extract_text_go, if_pos h]
          rw [hgo]
          simp only [List.map_cons, List.map_nil]
          rw [extract_text_go_bytes, if_pos (mem_map_toNat_iff.mpr h)]
        · have hgo : extract_text_go escs loose acc [c1] = (acc ++ [c1], []) := by
            rw [extract_text_go, if_neg h]
          rw [hgo]
          simp only [List.map_cons, List.map_nil]
          rw [extract_text_go_bytes,
            if_neg (fun hm => h (mem_map_toNat_iff.mp hm))]
          simp [List.map_append]
      | cons c2 rest =>
        have h1 : Char.toNat c1 < 128 := hascii c1 (by simp)
        have h2 : Char.toNat c2 < 128 := hascii c2 (by simp)
        have hrest : ∀ c ∈ rest, Char.toNat c < 128 :=
          fun c hc => hascii c (by simp [hc])
        have htail : ∀ c ∈ c2 :: rest, Char.toNat c < 128 :=
          fun c hc => hascii c (by simp; exact Or.inr (by simpa using hc))
        have hlen2 : rest.length + 2 ≤ n + 1 := by
          simpa [List.length_cons] using hlen
        have hb1 : ¬ okBoundary (rest.map Char.toNat) = false := by
          simp [okBoundary_ascii hrest]
        have hb2 : ¬ okBoundary (Char.toNat c2 :: rest.map Char.toNat) = false := by
          have := okBoundary_ascii htail
          simp only [List.map_cons] at this
          simp [this]
        by_cases hesc : c1 = '\\' ∧ (c2 ∈ escs ∨ c2 ∈ loose)
        · have hgo : extract_text_go escs loose acc (c1 :: c2 :: rest) =
              extract_text_go escs loose (acc ++ [c2]) rest := by
            rw [extract_text_go, if_pos hesc]
          rw [hgo]
          simp only [List.map_cons]
          have hc92 : Char.toNat c1 = 92 := by rw [hesc.1]; decide
          have hors : Char.toNat c2 ∈ escs.map Char.toNat ∨
              Char.toNat c2 ∈ loose.map Char.toNat :=
            hesc.2.imp (fun hx => mem_map_toNat_iff.mpr hx)
              (fun hx => mem_map_toNat_iff.mpr hx)
          rw [extract_text_go_bytes, if_neg hb1, if_pos ⟨hc92, hors⟩]
          have := ih rest (acc ++ [c2]) (by omega) hrest
          simpa [List.map_append] using this
        · have hbesc : ¬ (Char.toNat c1 = 92 ∧
              (Char.toNat c2 ∈ escs.map Char.toNat ∨
                Char.toNat c2 ∈ loose.map Char.toNat)) := by
            rintro ⟨ha, hb⟩
            exact hesc ⟨char_toNat_inj (ha.trans (by decide)),
              hb.imp (fun hx => mem_map_toNat_iff.mp hx)
                (fun hx => mem_map_toNat_iff.mp hx)⟩
          by_cases hmem : c1 ∈ escs
          · have hgo : extract_text_go escs loose acc (c1 :: c2 :: rest) =
                (acc, c1 :: c2 :: rest) := by
              rw [extract_text_go, if_neg hesc, if_pos hmem]
            rw [hgo]
            simp only [List.map_cons]
            rw [extract_text_go_bytes, if_neg hb1, if_neg hbesc, if_neg hb2,
              if_pos (mem_map_toNat_iff.mpr hmem)]
          · have hgo : extract_text_go escs loose acc (c1 :: c2 :: rest) =
                extract_text_go escs loose (acc ++ [c1]) (c2 :: rest) := by
              rw [extract_text_go, if_neg hesc, if_neg hmem]
            rw [hgo]
            simp only [List.map_cons]
            rw [extract_text_go_bytes, if_neg hb1, if_neg hbesc, if_neg hb2,
              if_neg (fun hm => hmem (mem_map_toNat_iff.mp hm))]
            have := ih (c2 :: rest) (acc ++ [c1]) (by simp; omega) htail
            simpa [List.map_append] using this

/-! ## C9: the parser is not error-free — the text scanner panics on
multi-byte characters -/

/-- C9: the claim that `from_str` returns a `Snippet` without error for
every input string is false of the program: `Snippet::extract_text`
slices its `&str` at byte offsets, and on the two-byte character e-acute
(bytes 195, 169) the one-byte slice at offset 1 falls inside the
character, so `Snippet::from_str` panics — the byte-faithful scanner
returns an error on that input at the top-level escape lists. On ASCII
input the scanner never panics and the char-level model is exact
(`extract_text_go_bytes_ascii`), and the char-level loop is total and
consumes a prefix (`extract_elements_suffix`,
`extract_elements_fuel_length`), which is the spec's evident intent. -/
theorem parse_panics_on_multibyte :
    strBytes "é" = [195, 169] ∧
    extract_text_bytes (strBytes "é") [Char.toNat '$', Char.toNat '\\']
      [Char.toNat rbrace] = Except.error () :=
  ⟨rfl, rfl⟩

/-! ## Decimal printing round-trips through digit parsing -/

theorem isDigit_digitChar (k : Nat) (hk : k < 10) :
    (Char.ofNat (48 + k)).isDigit = true := by
  interval_cases k <;> decide

theorem toNat_digitChar (k : Nat) (hk : k < 10) :
    (Char.ofNat (48 + k)).toNat = 48 + k := by
  interval_cases k <;> decide

theorem natDigitsW_ne_nil (n : Nat) : natDigitsW n ≠ [] := by
  unfold natDigitsW
  split <;> simp

theorem mem_natDigitsW_isDigit :
    ∀ (n : Nat), ∀ c ∈ natDigitsW n, c.isDigit = true := by
  intro n
  induction n using Nat.strong_induction_on with
  | _ n ih =>
    intro c hc
    unfold natDigitsW at hc
    split at hc
    · rename_i h10
      simp only [List.mem_singleton] at hc
      subst hc
      exact isDigit_digitChar n h10
    · rename_i h10
      rw [List.mem_append] at hc
      rcases hc with hc | hc
      · exact ih (n / 10) (Nat.div_lt_self (by omega) (by omega)) c hc
      · simp only [List.mem_singleton] at hc
        subst hc
        exact isDigit_digitChar (n % 10) (Nat.mod_lt _ (by omega))

theorem digitsVal_natDigitsW : ∀ n : Nat, digitsVal (natDigitsW n) = n := by
  intro n
  induction n using Nat.strong_induction_on with
  | _ n ih =>
    unfold natDigitsW
    split
    · rename_i h10
      unfold digitsVal
      simp only [List.foldl_cons, List.foldl_nil]
      rw [toNat_digitChar n h10]
      omega
    · rename_i h10
      unfold digitsVal
      rw [List.foldl_append]
      have hprev := ih (n / 10) (Nat.div_lt_self (by omega) (by omega))
      unfold digitsVal at hprev
      rw [hprev]
      simp only [List.foldl_cons, List.foldl_nil]
      rw [toNat_digitChar (n % 10) (Nat.mod_lt _ (by omega))]
      omega

theorem natDigitsAux_eq :
    ∀ (fuel n : Nat) (acc : List Char), n < fuel →
      natDigitsAux fuel n acc = natDigitsW n ++ acc := by
  intro fuel
  induction fuel with
  | zero => intro n acc h; omega
  | succ f ih =>
    intro n acc h
    rw [natDigitsAux]
    split
    · rename_i h10
      rw [natDigitsW, dif_pos h10]
      rfl
    · rename_i h10
      rw [ih (n / 10) _ (by omega)]
      conv_rhs => rw [natDigitsW]
      rw [dif_neg h10]
      simp

theorem natDigits_eq_W (n : Nat) : natDigits n = natDigitsW n := by
  unfold natDigits
  rw [natDigitsAux_eq (n + 1) n [] (by omega), List.append_nil]

theorem natDigits_ne_nil (n : Nat) : natDigits n ≠ [] := by
  rw [natDigits_eq_W]; exact natDigitsW_ne_nil n

theorem mem_natDigits_isDigit (n : Nat) : ∀ c ∈ natDigits n, c.isDigit = true := by
  rw [natDigits_eq_W]; exact mem_natDigitsW_isDigit n

theorem digitsVal_natDigits (n : Nat) : digitsVal (natDigits n) = n := by
  rw [natDigits_eq_W]; exact digitsVal_natDigitsW n

theorem takeWhile_append_all {p : Char → Bool} :
    ∀ {l1 l2 : List Char}, (∀ c ∈ l1, p c = true) →
      (l1 ++ l2).takeWhile p = l1 ++ l2.takeWhile p := by
  intro l1
  induction l1 with
  | nil => intro l2 _; simp
  | cons c cs ih =>
    intro l2 h
    have hc := h c (List.mem_cons_self c cs)
    have ihr := @ih l2 (fun x hx => h x (List.mem_cons_of_mem c hx))
    simp [List.takeWhile_cons, hc, ihr]

theorem takeWhile_isDigit_nil {l : List Char} (h : noDigitHead l = true) :
    l.takeWhile Char.isDigit = [] := by
  cases l with
  | nil => rfl
  | cons c cs =>
    simp only [noDigitHead, Bool.not_eq_true'] at h
    simp [List.takeWhile_cons, h]

/-- Greedy digit scan of a printed number followed by a non-digit resumes
exactly after the number. -/
theorem takeWhile_natDigits (n : Nat) (rest : List Char)
    (h : noDigitHead rest = true) :
    (natDigits n ++ rest).takeWhile Char.isDigit = natDigits n := by
  rw [takeWhile_append_all (mem_natDigits_isDigit n), takeWhile_isDigit_nil h,
    List.append_nil]

/-! ## Extractor behaviour on canonical renderings -/

theorem extract_tabstop_render {n : Nat} {rest : List Char}
    (h : noDigitHead rest = true) :
    extract_tabstop ('$' :: (natDigits n ++ rest)) =
      some (SnippetElement.Tabstop n, rest) := by
  have hds := takeWhile_natDigits n rest h
  simp only [extract_tabstop, hds, if_true]
  rw [if_neg (natDigits_ne_nil n), digitsVal_natDigits, List.drop_left]

theorem extract_tabstop_none_of_head {c : Char} {l : List Char} (h : ¬ c = '$') :
    extract_tabstop (c :: l) = none := by
  simp only [extract_tabstop]
  rw [if_neg h]

theorem extract_tabstop_none_ph {n : Nat} {rest : List Char} :
    extract_tabstop ('$' :: lbrace :: (natDigits n ++ ':' :: rest)) = none := by
  have hds1 : (lbrace :: (natDigits n ++ ':' :: rest)).takeWhile Char.isDigit = [] :=
    takeWhile_isDigit_nil rfl
  have hds2 := takeWhile_natDigits n (':' :: rest) rfl
  simp only [extract_tabstop, hds1, hds2, eq_self_iff_true, if_true, List.drop_left]
  rw [if_neg]
  intro hcon
  exact absurd hcon.1 (by decide)

theorem placeholder_match_none_of_head {c : Char} {l : List Char} (h : ¬ c = '$') :
    placeholder_match (c :: l) = none := by
  cases l with
  | nil => rfl
  | cons c2 r2 =>
    simp only [placeholder_match]
    rw [if_neg (fun hh => h hh.1)]

theorem placeholder_match_render (n : Nat) (tail : List Char)
    (hklt : tail.findIdx (fun c => c == rbrace) < tail.length)
    (hnl : '\n' ∉ tail.take (tail.findIdx (fun c => c == rbrace))) :
    placeholder_match ('$' :: lbrace :: (natDigits n ++ ':' :: tail)) =
      some ⟨n, tail, tail.findIdx (fun c => c == rbrace)⟩ := by
  have hds := takeWhile_natDigits n (':' :: tail) rfl
  simp only [placeholder_match, hds, eq_self_iff_true, and_self, if_true,
    List.drop_left, digitsVal_natDigits]
  rw [if_neg (natDigits_ne_nil n), if_pos ⟨hklt, hnl⟩]

theorem extract_text_go_all (escs loose : List Char) :
    ∀ (t rest acc : List Char), (∀ c ∈ t, c ∉ escs ∧ c ≠ '\\') →
      stopsText escs rest →
      extract_text_go escs loose acc (t ++ rest) = (acc ++ t, rest) := by
  intro t
  induction t with
  | nil =>
    intro rest acc _ hstop
    rcases hstop with rfl | ⟨c, cs, rfl, hc, hcb⟩
    · simp [extract_text_go]
    · cases cs with
      | nil =>
        simp only [List.nil_append]
        rw [extract_text_go, if_pos hc, List.append_nil]
      | cons c2 r2 =>
        simp only [List.nil_append]
        rw [extract_text_go, if_neg (fun hh => hcb hh.1), if_pos hc, List.append_nil]
  | cons a t' ih =>
    intro rest acc h hstop
    have ha := h a (List.mem_cons_self a t')
    cases htr : t' ++ rest with
    | nil =>
      obtain ⟨ht', hrest⟩ := List.append_eq_nil.mp htr
      subst ht'
      subst hrest
      simp only [List.cons_append, List.nil_append, List.append_nil]
      rw [extract_text_go, if_neg ha.1]
    | cons b m =>
      simp only [List.cons_append, htr]
      rw [extract_text_go, if_neg (fun hh => ha.2 hh.1), if_neg ha.1, ← htr]
      rw [ih rest (acc ++ [a]) (fun c hc => h c (List.mem_cons_of_mem a hc)) hstop]
      simp

theorem extract_text_render {t rest : List Char} (escs loose : List Char)
    (ht : t ≠ []) (h : ∀ c ∈ t, c ∉ escs ∧ c ≠ '\\')
    (hstop : stopsText escs rest) :
    extract_text (t ++ rest) escs loose = some (SnippetElement.Text ⟨t⟩, rest) := by
  have hgo := extract_text_go_all escs loose t rest [] h hstop
  simp only [List.nil_append] at hgo
  simp only [extract_text, hgo]
  rw [if_neg ht]

theorem extract_text_none_esc {c : Char} {l escs loose : List Char}
    (hc : c ∈ escs) (hcb : c ≠ '\\') :
    extract_text (c :: l) escs loose = none := by
  have hgo : extract_text_go escs loose [] (c :: l) = ([], c :: l) := by
    cases l with
    | nil => rw [extract_text_go, if_pos hc]
    | cons c2 r2 => rw [extract_text_go, if_neg (fun hh => hcb hh.1), if_pos hc]
  simp only [extract_text, hgo, eq_self_iff_true, if_true]

/-! ## Canonical snippets: structural facts -/

theorem canonList_cons {nested : Bool} {e : SnippetElement}
    {es : List SnippetElement} :
    canonList nested (e :: es) = true ↔
      canonEl nested e = true ∧ canonList nested es = true ∧ pairOk e es = true := by
  simp [canonList, Bool.and_eq_true, and_assoc]

theorem canonEl_text {nested : Bool} {t : String} :
    canonEl nested (SnippetElement.Text t) = true ↔
      (t.data ≠ [] ∧ '$' ∉ t.data ∧ '\\' ∉ t.data ∧
        (nested = true → rbrace ∉ t.data ∧ '\n' ∉ t.data) ∧
        ∀ c ∈ t.data, c.toNat < 128) := by
  simp only [canonEl, decide_eq_true_eq]

theorem canonEl_ph {nested : Bool} {n : Nat} {els : List SnippetElement} :
    canonEl nested (SnippetElement.PlaceHolder n els) = true ↔
      (isEmptyText els = true ∨ (els ≠ [] ∧ canonList true els = true)) := by
  simp [canonEl, Bool.or_eq_true, Bool.and_eq_true, List.isEmpty_iff]

theorem isEmptyText_iff {els : List SnippetElement} :
    isEmptyText els = true ↔ els = [SnippetElement.Text ""] := by
  cases els with
  | nil => simp [isEmptyText]
  | cons e es =>
    cases e with
    | Text t =>
      cases es with
      | nil =>
        obtain ⟨d⟩ := t
        simp [isEmptyText, List.isEmpty_iff, String.ext_iff]
      | cons f fs => simp [isEmptyText]
    | PlaceHolder n els2 => simp [isEmptyText]
    | Tabstop n => simp [isEmptyText]

theorem render_head_of_not_text {f : SnippetElement} (h : isTextEl f = false) :
    ∃ cs, SnippetElement.render f = '$' :: cs := by
  cases f with
  | Text t => simp [isTextEl] at h
  | PlaceHolder n els => exact ⟨_, rfl⟩
  | Tabstop n => exact ⟨_, rfl⟩

theorem render_ne_nil {nested : Bool} {e : SnippetElement}
    (h : canonEl nested e = true) : SnippetElement.render e ≠ [] := by
  cases e with
  | Text t =>
    have ht := canonEl_text.mp h
    simpa [SnippetElement.render] using ht.1
  | PlaceHolder n els => simp [SnippetElement.render]
  | Tabstop n => simp [SnippetElement.render]

theorem dollar_mem_escsOf (nested : Bool) : '$' ∈ escsOf nested := by
  cases nested <;> simp [escsOf]

theorem rbrace_mem_escsOf_true : rbrace ∈ escsOf true := by simp [escsOf]

/-- The closing context (`rbrace :: s2` inside a placeholder, `[]` at top
level) stops a text scan. -/
theorem stopsText_stop {nested : Bool} {stop : List Char}
    (hstop : if nested = true then ∃ s2, stop = rbrace :: s2 else stop = []) :
    stopsText (escsOf nested) stop := by
  cases nested with
  | false =>
    rw [if_neg (by decide)] at hstop
    exact Or.inl hstop
  | true =>
    rw [if_pos rfl] at hstop
    obtain ⟨s2, rfl⟩ := hstop
    exact Or.inr ⟨rbrace, s2, rfl, rbrace_mem_escsOf_true, by decide⟩

/-- What follows a canonical text element stops a text scan: either the
closing context, or the next element, whose rendering starts with a dollar. -/
theorem stopsText_after {nested : Bool} {es : List SnippetElement}
    {stop : List Char}
    (hstop : if nested = true then ∃ s2, stop = rbrace :: s2 else stop = [])
    (hes : ∀ f es2, es = f :: es2 → isTextEl f = false) :
    stopsText (escsOf nested) (renderList es ++ stop) := by
  cases es with
  | nil => simpa [renderList] using stopsText_stop hstop
  | cons f es2 =>
    obtain ⟨cs, hcs⟩ := render_head_of_not_text (hes f es2 rfl)
    refine Or.inr ⟨'$', cs ++ (renderList es2 ++ stop), ?_, dollar_mem_escsOf nested,
      by decide⟩
    simp [renderList, hcs]

/-- What follows a canonical tabstop never starts with a digit. -/
theorem noDigitHead_after {nested : Bool} {es : List SnippetElement}
    {stop : List Char}
    (hstop : if nested = true then ∃ s2, stop = rbrace :: s2 else stop = [])
    (hes : ∀ f es2, es = f :: es2 → startsWithDigit f = false)
    (hcanon : ∀ f es2, es = f :: es2 → canonEl nested f = true) :
    noDigitHead (renderList es ++ stop) = true := by
  cases es with
  | nil =>
    simp only [renderList, List.nil_append]
    cases nested with
    | false =>
      rw [if_neg (by decide)] at hstop
      subst hstop
      rfl
    | true =>
      rw [if_pos rfl] at hstop
      obtain ⟨s2, rfl⟩ := hstop
      rfl
  | cons f es2 =>
    cases f with
    | Text t =>
      have hf := hes _ _ rfl
      cases hd : t.data with
      | nil =>
        have := (canonEl_text.mp (hcanon _ _ rfl)).1
        exact absurd hd this
      | cons c cs =>
        simp only [startsWithDigit, hd] at hf
        simp [renderList, SnippetElement.render, hd, noDigitHead, hf]
    | PlaceHolder n els =>
      simp [renderList, SnippetElement.render, noDigitHead]
    | Tabstop n =>
      simp [renderList, SnippetElement.render, noDigitHead]

theorem findIdx_append_le {p : Char → Bool} {x : Char} (h : p x = true) :
    ∀ (l1 l2 : List Char), (l1 ++ x :: l2).findIdx p ≤ l1.length := by
  intro l1
  induction l1 with
  | nil => intro l2; simp [List.findIdx_cons, h]
  | cons a m ih =>
    intro l2
    cases hp : p a
    · simp only [List.cons_append, List.findIdx_cons, hp, cond_false, List.length_cons]
      have := ih l2
      omega
    · simp [List.cons_append, List.findIdx_cons, hp]

theorem natDigits_ne_newline {n : Nat} {c : Char} (hc : c ∈ natDigits n) :
    ¬ c = '\n' := by
  intro h
  subst h
  have := mem_natDigits_isDigit n _ hc
  exact absurd this (by decide)

/-- Length of a placeholder's rendering in terms of its children's. -/
theorem render_ph_length (n : Nat) (els : List SnippetElement) :
    (SnippetElement.render (SnippetElement.PlaceHolder n els)).length =
      (renderList els).length + (natDigits n).length + 4 := by
  simp [SnippetElement.render]
  omega

/-- A canonical nested sequence renders without newlines (digits, the
delimiter characters, and canonical nested text contain none). -/
theorem no_newline_renderList :
    ∀ (N : Nat) (els : List SnippetElement), (renderList els).length ≤ N →
      canonList true els = true → '\n' ∉ renderList els := by
  intro N
  induction N with
  | zero =>
    intro els h _ hmem
    have hnil : renderList els = [] := List.length_eq_zero.mp (Nat.le_zero.mp h)
    rw [hnil] at hmem
    exact absurd hmem (List.not_mem_nil _)
  | succ N ih =>
    intro els hlen hcanon hmem
    cases els with
    | nil => simp [renderList] at hmem
    | cons e es =>
      obtain ⟨hce, hces, hpair⟩ := canonList_cons.mp hcanon
      have hene : SnippetElement.render e ≠ [] := render_ne_nil hce
      have hepos : 0 < (SnippetElement.render e).length := List.length_pos.mpr hene
      have hlen2 : (SnippetElement.render e).length + (renderList es).length ≤ N + 1 := by
        have := List.length_append (SnippetElement.render e) (renderList es)
        simp only [renderList] at hlen
        omega
      simp only [renderList, List.mem_append] at hmem
      rcases hmem with hmem | hmem
      · cases e with
        | Text t =>
          have ht := canonEl_text.mp hce
          exact absurd (by simpa [SnippetElement.render] using hmem) ((ht.2.2.2.1 rfl).2)
        | Tabstop n =>
          simp only [SnippetElement.render, List.mem_cons] at hmem
          rcases hmem with h | h
          · exact absurd h (by decide)
          · exact natDigits_ne_newline h rfl
        | PlaceHolder n els2 =>
          simp only [SnippetElement.render, List.mem_cons, List.mem_append,
            List.mem_singleton] at hmem
          rcases hmem with h | h | h | h | h | h
          · exact absurd h (by decide)
          · exact absurd h (by decide)
          · exact natDigits_ne_newline h rfl
          · exact absurd h (by decide)
          · -- newline inside the children's rendering
            have hchild := canonEl_ph.mp hce
            rcases hchild with hempty | ⟨-, hcanon2⟩
            · rw [isEmptyText_iff.mp hempty] at h
              simp [renderList, SnippetElement.render] at h
            · have hdig : 0 < (natDigits n).length :=
                List.length_pos.mpr (natDigits_ne_nil n)
              have := render_ph_length n els2
              exact ih els2 (by omega) hcanon2 h
          · exact absurd h (by decide)
      · -- newline in the remaining elements
        exact ih es (by omega) hces hmem

/-- A nonempty canonical nested sequence renders starting with a character
other than rbrace (so the placeholder regex's lazy content is nonempty). -/
theorem renderList_head_ne_rbrace {els : List SnippetElement}
    (hcanon : canonList true els = true) (hne : els ≠ []) :
    ∃ c cs, renderList els = c :: cs ∧ (c == rbrace) = false := by
  cases els with
  | nil => exact absurd rfl hne
  | cons e es =>
    obtain ⟨hce, -, -⟩ := canonList_cons.mp hcanon
    cases e with
    | Text t =>
      have ht := canonEl_text.mp hce
      obtain ⟨c, cs, hcs⟩ := List.exists_cons_of_ne_nil ht.1
      refine ⟨c, cs ++ renderList es,
        by simp [renderList, SnippetElement.render, hcs], ?_⟩
      have hcmem : c ∈ t.data := by rw [hcs]; exact List.mem_cons_self c cs
      have hnb : c ≠ rbrace := fun hh => absurd (hh ▸ hcmem) ((ht.2.2.2.1 rfl).1)
      simpa using hnb
    | PlaceHolder n els2 =>
      exact ⟨'$',
        (lbrace :: (natDigits n ++ ':' :: (renderList els2 ++ [rbrace]))) ++
          renderList es,
        by simp [renderList, SnippetElement.render], by decide⟩
    | Tabstop n =>
      exact ⟨'$', natDigits n ++ renderList es,
        by simp [renderList, SnippetElement.render], by decide⟩

/-! ## The round-trip induction -/

/-- Parsing the rendering of a canonical sequence followed by its closing
context (the closing rbrace inside a placeholder, end of input at top
level) recovers exactly the sequence and stops at the closing context. -/
theorem parse_render :
    ∀ (N : Nat) (nested : Bool) (els : List SnippetElement) (stop : List Char),
      (renderList els ++ stop).length ≤ N →
      canonList nested els = true →
      (if nested = true then ∃ s2, stop = rbrace :: s2 else stop = []) →
      extract_elements (renderList els ++ stop) (escsOf nested) (looseOf nested) =
        (els, stop) := by
  intro N
  induction N with
  | zero =>
    intro nested els stop hlen hcanon hstop
    have h0 : renderList els ++ stop = [] :=
      List.length_eq_zero.mp (Nat.le_zero.mp hlen)
    obtain ⟨hr, hs⟩ := List.append_eq_nil.mp h0
    have hels : els = [] := by
      cases els with
      | nil => rfl
      | cons e es =>
        obtain ⟨hce, -, -⟩ := canonList_cons.mp hcanon
        simp only [renderList] at hr
        exact absurd (List.append_eq_nil.mp hr).1 (render_ne_nil hce)
    subst hels
    subst hs
    rfl
  | succ N ih =>
    intro nested els stop hlen hcanon hstop
    cases els with
    | nil =>
      simp only [renderList, List.nil_append]
      cases nested with
      | false =>
        rw [if_neg (by decide)] at hstop
        subst hstop
        exact extract_elements_nil _ _
      | true =>
        rw [if_pos rfl] at hstop
        obtain ⟨s2, rfl⟩ := hstop
        exact extract_elements_stop _ _
          (extract_tabstop_none_of_head (by decide))
          (placeholder_match_none_of_head (by decide))
          (extract_text_none_esc rbrace_mem_escsOf_true (by decide))
    | cons e es =>
      obtain ⟨hce, hces, hpair⟩ := canonList_cons.mp hcanon
      have hlen1 : (SnippetElement.render e).length +
          ((renderList es).length + stop.length) ≤ N + 1 := by
        simp only [renderList, List.length_append] at hlen
        omega
      cases e with
      | Text t =>
        have ht := canonEl_text.mp hce
        have htpos : 0 < t.data.length := List.length_pos.mpr ht.1
        have hshape : renderList (SnippetElement.Text t :: es) ++ stop =
            t.data ++ (renderList es ++ stop) := by
          simp [renderList, SnippetElement.render, List.append_assoc]
        rw [hshape]
        obtain ⟨c, cs, hcd⟩ := List.exists_cons_of_ne_nil ht.1
        have hcmem : c ∈ t.data := by rw [hcd]; exact List.mem_cons_self c cs
        have hcne : ¬ c = '$' := fun hh => absurd (hh ▸ hcmem) ht.2.1
        have h1 : extract_tabstop (t.data ++ (renderList es ++ stop)) = none := by
          rw [hcd, List.cons_append]
          exact extract_tabstop_none_of_head hcne
        have h2 : placeholder_match (t.data ++ (renderList es ++ stop)) = none := by
          rw [hcd, List.cons_append]
          exact placeholder_match_none_of_head hcne
        have hchars : ∀ ch ∈ t.data, ch ∉ escsOf nested ∧ ch ≠ '\\' := by
          intro ch hch
          refine ⟨?_, fun hh => absurd (hh ▸ hch) ht.2.2.1⟩
          intro hmem
          cases nested with
          | false =>
            have hesc : escsOf false = ['$', '\\'] := rfl
            rw [hesc] at hmem
            simp only [List.mem_cons, List.not_mem_nil, or_false] at hmem
            rcases hmem with rfl | rfl
            · exact absurd hch ht.2.1
            · exact absurd hch ht.2.2.1
          | true =>
            have hesc : escsOf true = ['$', rbrace, '\\'] := rfl
            rw [hesc] at hmem
            simp only [List.mem_cons, List.not_mem_nil, or_false] at hmem
            rcases hmem with rfl | rfl | rfl
            · exact absurd hch ht.2.1
            · exact absurd hch ((ht.2.2.2.1 rfl).1)
            · exact absurd hch ht.2.2.1
        have hstop2 : stopsText (escsOf nested) (renderList es ++ stop) := by
          refine stopsText_after hstop ?_
          intro f es2 hfe
          rw [hfe] at hpair
          simpa [pairOk] using hpair
        have h3 := extract_text_render (escsOf nested) (looseOf nested)
          ht.1 hchars hstop2
        rw [extract_elements_text _ _ h1 h2 h3]
        have hrlen : (SnippetElement.Text t).render.length = t.data.length := rfl
        rw [ih nested es stop
          (by simp only [List.length_append]; omega) hces hstop]
      | Tabstop n =>
        have hdigpos : 0 < (natDigits n).length :=
          List.length_pos.mpr (natDigits_ne_nil n)
        have hshape : renderList (SnippetElement.Tabstop n :: es) ++ stop =
            '$' :: (natDigits n ++ (renderList es ++ stop)) := by
          simp [renderList, SnippetElement.render, List.append_assoc]
        rw [hshape]
        have hnd : noDigitHead (renderList es ++ stop) = true := by
          refine noDigitHead_after hstop ?_ ?_
          · intro f es2 hfe
            rw [hfe] at hpair
            simpa [pairOk] using hpair
          · intro f es2 hfe
            rw [hfe] at hces
            exact (canonList_cons.mp hces).1
        have hdlen : (SnippetElement.render (SnippetElement.Tabstop n)).length =
            (natDigits n).length + 1 := by
          simp [SnippetElement.render]
        rw [extract_elements_tabstop _ _ (extract_tabstop_render hnd)]
        rw [ih nested es stop
          (by simp only [List.length_append]; omega) hces hstop]
      | PlaceHolder n children =>
        have hdigpos : 0 < (natDigits n).length :=
          List.length_pos.mpr (natDigits_ne_nil n)
        have hphlen := render_ph_length n children
        have hshape : renderList (SnippetElement.PlaceHolder n children :: es) ++ stop =
            '$' :: lbrace :: (natDigits n ++ ':' ::
              (renderList children ++ rbrace :: (renderList es ++ stop))) := by
          simp [renderList, SnippetElement.render, List.append_assoc]
        rw [hshape]
        rcases canonEl_ph.mp hce with hempty | ⟨hcne, hccanon⟩
        · -- empty placeholder: children = [Text ""]
          rw [isEmptyText_iff.mp hempty]
          have hrc : renderList [SnippetElement.Text ""] = [] := rfl
          rw [hrc, List.nil_append]
          have hfind : (rbrace :: (renderList es ++ stop)).findIdx
              (fun c => c == rbrace) = 0 := by
            simp [List.findIdx_cons]
          have h2 := placeholder_match_render n
            (rbrace :: (renderList es ++ stop))
            (by rw [hfind]; simp) (by rw [hfind]; simp)
          rw [hfind] at h2
          rw [extract_elements_ph_empty _ _ extract_tabstop_none_ph h2 rfl]
          dsimp only
          rw [List.drop_one, List.tail_cons]
          rw [ih nested es stop
            (by simp only [List.length_append]; omega) hces hstop]
        · -- nonempty canonical children
          obtain ⟨c0, cs0, hc0, hc0ne⟩ := renderList_head_ne_rbrace hccanon hcne
          have hkle : (renderList children ++ rbrace :: (renderList es ++ stop)).findIdx
              (fun c => c == rbrace) ≤ (renderList children).length :=
            findIdx_append_le (by simp) _ _
          have hkne : (renderList children ++ rbrace :: (renderList es ++ stop)).findIdx
              (fun c => c == rbrace) ≠ 0 := by
            rw [hc0, List.cons_append]
            simp [List.findIdx_cons, hc0ne]
          have hklt : (renderList children ++ rbrace :: (renderList es ++ stop)).findIdx
              (fun c => c == rbrace) <
              (renderList children ++ rbrace :: (renderList es ++ stop)).length := by
            simp only [List.length_append, List.length_cons]
            omega
          have hnl : '\n' ∉ (renderList children ++ rbrace ::
              (renderList es ++ stop)).take
              ((renderList children ++ rbrace :: (renderList es ++ stop)).findIdx
                (fun c => c == rbrace)) := by
            intro hmem
            rw [List.take_append_of_le_length hkle] at hmem
            have hmem2 : '\n' ∈ renderList children :=
              List.take_subset _ _ hmem
            exact absurd hmem2
              (no_newline_renderList (renderList children).length children
                (Nat.le_refl _) hccanon)
          have h2 := placeholder_match_render n
            (renderList children ++ rbrace :: (renderList es ++ stop))
            hklt hnl
          rw [extract_elements_ph _ _ extract_tabstop_none_ph h2 hkne]
          dsimp only
          have hih1 := ih true children (rbrace :: (renderList es ++ stop))
            (by simp only [List.length_append, List.length_cons]; omega)
            hccanon (by rw [if_pos rfl]; exact ⟨_, rfl⟩)
          simp only [escsOf, looseOf, if_pos] at hih1
          rw [hih1]
          dsimp only
          rw [List.drop_one, List.tail_cons]
          rw [ih nested es stop
            (by simp only [List.length_append]; omega) hces hstop]

/-! ## C2: the round-trip law -/

/-- C2 (amended): for every snippet in canonical form — texts nonempty,
ASCII-only, and free of dollar, backslash (and rbrace, newline inside
placeholders), no two adjacent texts, no text starting with a digit right
after a tabstop, and placeholders holding an empty text or a nonempty
canonical sequence — `from_str` is a left inverse of `to_string`, and
printing the reparse reproduces the string. Texts must be ASCII because
the source's `extract_text` slices its `&str` at byte offsets and panics
on any multi-byte character (see `extract_text_bytes` and
`parse_panics_on_multibyte`); the rendering of a canonical snippet is then
all ASCII (the syntax characters and decimal digits are), where the
char-level model computes the program (`extract_text_go_bytes_ascii`). -/
theorem roundtrip_canonical (s : Snippet) (h : canonList false s.elements = true) :
    Snippet.from_str s.to_string = s ∧
    (Snippet.from_str s.to_string).to_string = s.to_string := by
  have h1 : Snippet.from_str s.to_string = s := by
    have hmain := parse_render (renderList s.elements).length false s.elements []
      (by simp) h (by rw [if_neg (by decide)])
    simp only [List.append_nil] at hmain
    have hesc : escsOf false = ['$', '\\'] := rfl
    have hloose : looseOf false = [rbrace] := rfl
    rw [hesc, hloose] at hmain
    show (⟨(extract_elements
      (String.data ⟨renderList s.elements⟩) ['$', '\\'] [rbrace]).1⟩ : Snippet) = s
    rw [show String.data ⟨renderList s.elements⟩ = renderList s.elements from rfl,
      hmain]
  exact ⟨h1, by rw [h1]⟩

/-- Witness for C2 (amended) on a canonical snippet exercising text,
tabstops and nested placeholders. -/
theorem roundtrip_canonical_witness :
    Snippet.from_str snipCanon.to_string = snipCanon :=
  (roundtrip_canonical snipCanon (by decide)).1

/-- Counterexample to C2 as stated: the snippet built as
`[Tabstop 1, Text "2a"]` — each element in its canonical printed form —
renders as the four characters dollar 1 2 a, which reparse as
`[Tabstop 12, Text "a"]`: the digit of the following text is absorbed into
the tabstop index, so `parse (s.toString())` is not structurally equal
to `s`. -/
theorem roundtrip_counterexample :
    Snippet.from_str snipCounter.to_string ≠ snipCounter ∧
    (Snippet.from_str snipCounter.to_string).elements =
      [SnippetElement.Tabstop 12, SnippetElement.Text "a"] := by
  refine ⟨?_, rfl⟩
  intro h
  have h2 := congrArg Snippet.elements h
  have h3 : (Snippet.from_str snipCounter.to_string).elements =
      [SnippetElement.Tabstop 12, SnippetElement.Text "a"] := rfl
  rw [h3] at h2
  simp [snipCounter] at h2

end Lapce
